import Mathlib

/-!
Verification development for the ritmex-bot exchange connectivity gateway.

The definitions below are shallow embeddings of the TypeScript source:
* `Lighter.decimalToScaled`, `Lighter.scaleQuantityWithMinimum`,
  `Lighter.scaledToDecimalString` from `src/exchanges/lighter/decimal.ts`
  (the decimal module appended to `gateway.ts` in the source snapshot);
* the order-book, order-map and position reconciliation handlers from
  `src/exchanges/lighter/gateway.ts`;
* the rate-limit controller from `src/core/lib/rate-limit.ts`;
* the nonce-rollback flows of `createOrder` / `cancelOrder` /
  `cancelAllOrders` from `gateway.ts` (the nonce manager itself is
  modelled from the spec, see `NonceManager`).

JavaScript strings are modelled as `List Char` (with `String` wrappers),
JS `bigint` as `Int`, and JS `number` as `Int` or `Rat` where the code
only ever compares / copies the values (decimal strings of order-book
levels are modelled by the exact rational value they denote).
-/

namespace Lighter

/-- One decimal digit rendered as a character (`0 ≤ n ≤ 9` expected). -/
def digitChar (n : Nat) : Char := Char.ofNat (48 + n)

/-- Numeric value of a digit character. -/
def charVal (c : Char) : Nat := c.toNat - 48

/-- Value of a big-endian digit-character string, as read by JS `BigInt(...)`. -/
def digitsToNat (l : List Char) : Nat := l.foldl (fun a c => 10 * a + charVal c) 0

/-- Fuel-driven digit emitter (structural recursion so that terms reduce). -/
def natToCharsGo : Nat → Nat → List Char → List Char
  | 0, _, acc => acc
  | fuel + 1, m, acc =>
    if m < 10 then digitChar m :: acc
    else natToCharsGo fuel (m / 10) (digitChar (m % 10) :: acc)

/-- Decimal rendering of a natural number, as produced by JS `BigInt.toString()`. -/
def natToChars (m : Nat) : List Char := natToCharsGo (m + 1) m []

/-- Result of `normalizeDecimalInput` in `decimal.ts`: a sign, the significant
digits (integer part with leading zeros stripped, then the fraction with
trailing zeros stripped), and the length of that fraction. -/
structure NormalizedDecimal where
  sign : Int
  digits : List Char
  fractionLength : Nat
deriving Repr, DecidableEq

/-- JS `integerPartRaw.replace(/^0+(?=\d)/, "")`: drops leading zeros but always
keeps at least one character of a non-empty input. -/
def stripLeadingZeros (l : List Char) : List Char :=
  if l = [] then []
  else
    match l.dropWhile (fun c => c = '0') with
    | [] => ['0']
    | r => r

/-- JS `fractionRaw.replace(/0+$/, "")`. -/
def stripTrailingZeros (l : List Char) : List Char :=
  ((l.reverse).dropWhile (fun c => c = '0')).reverse

/-- JS `String.prototype.trim` (whitespace at either end). -/
def trimChars (l : List Char) : List Char :=
  ((l.dropWhile Char.isWhitespace).reverse.dropWhile Char.isWhitespace).reverse

/-- The `/^\d*(?:\.\d*)?$/` test of `normalizeDecimalInput`: at most one decimal
point and nothing but digits otherwise. -/
def validBody (l : List Char) : Bool :=
  decide (l.count '.' ≤ 1) && l.all (fun c => c.isDigit || c = '.')

/-- `normalizeDecimalInput` from `decimal.ts`, string path; `none` models a
thrown `FormatError`. -/
def normalizeDecimalInput (l : List Char) : Option NormalizedDecimal :=
  let trimmed := trimChars l
  if trimmed = [] then none
  else
    let neg := trimmed.head? = some '-'
    let sign : Int := if neg then -1 else 1
    let unsigned := if neg then trimmed.tail else trimmed
    if ¬ validBody unsigned then none
    else if unsigned = [] ∨ unsigned = ['.'] then some ⟨1, ['0'], 0⟩
    else
      -- `unsigned.split(".")`: with at most one '.', parts[0] is everything
      -- before the first '.', parts[1] ?? "" is everything after it.
      let intRaw := unsigned.takeWhile (fun c => c ≠ '.')
      let fracRaw := (unsigned.dropWhile (fun c => c ≠ '.')).drop 1
      let integerPart := stripLeadingZeros intRaw
      let fractionPart := stripTrailingZeros fracRaw
      if integerPart = [] ∧ fractionPart = [] then some ⟨1, ['0'], 0⟩
      else
        some ⟨sign, (if integerPart = [] then ['0'] else integerPart) ++ fractionPart,
              fractionPart.length⟩

/-- The scaling step of `decimalToScaled` applied to a normalized input. -/
def scaledFromNorm (norm : NormalizedDecimal) (decimals : Nat) : Int :=
  if decimals < norm.fractionLength then
    let trimLength := norm.fractionLength - decimals
    let truncated0 := norm.digits.take (norm.digits.length - trimLength)
    let truncated := if truncated0 = [] then ['0'] else truncated0
    norm.sign * (digitsToNat truncated : Int)
  else
    norm.sign * (digitsToNat (norm.digits ++ List.replicate (decimals - norm.fractionLength) '0') : Int)

/-- `decimalToScaled` from `decimal.ts` (string input; `decimals : Nat` covers
the `decimals < 0` throw; `none` models a thrown error). -/
def decimalToScaled (s : String) (decimals : Nat) : Option Int :=
  (normalizeDecimalInput s.data).map fun norm => scaledFromNorm norm decimals

/-- The test `!Number.isFinite(numeric) || numeric === 0` of
`scaleQuantityWithMinimum`, where `numeric = Number(value)`, computed from the
normalized form of the accepted string.  Normalization preserves the exact
rational value `m / 10^F` (`m` the digits' value, `F` the fraction length), and
`Number` rounds that value to the nearest IEEE-754 double with ties to even, so:
`numeric === 0` exactly when `m / 10^F ≤ 2^(-1075)` (half the least subnormal
`2^(-1074)`; the tie has even mantissa `0`), i.e. `m * 2^1075 ≤ 10^F`; and the
magnitude overflows to `Infinity` (`!Number.isFinite`) exactly when
`m / 10^F ≥ 2^1024 - 2^970` (the midpoint above the largest finite double,
whose odd mantissa loses the tie), i.e. `(2^1024 - 2^970) * 10^F ≤ m`.  The one
remaining non-finite case, `NaN`, arises only for accepted strings with no
digit at all (`"."`, `"-"`, `"-."`), which normalize to `m = 0`, `F = 0` and so
satisfy the first disjunct — and the source returns `scaled` for `NaN` and for
`0` alike, so this condition selects the source's branch on every accepted
input. -/
def numericZeroOrNonfinite (norm : NormalizedDecimal) : Prop :=
  digitsToNat norm.digits * 2 ^ 1075 ≤ 10 ^ norm.fractionLength ∨
  (2 ^ 1024 - 2 ^ 970) * 10 ^ norm.fractionLength ≤ digitsToNat norm.digits

instance (norm : NormalizedDecimal) : Decidable (numericZeroOrNonfinite norm) := by
  unfold numericZeroOrNonfinite
  infer_instance

/-- `scaleQuantityWithMinimum` from `decimal.ts`.  The source re-reads the raw
input as a JS float (`numeric = Number(value)`): it returns `scaled` when
`!Number.isFinite(numeric) || numeric === 0` — modelled value-exactly by
`numericZeroOrNonfinite` — and otherwise returns a unit of the sign of
`numeric`, i.e. `-1` exactly when `numeric < 0`.  In that final branch
`numeric` is finite and nonzero, so `numeric < 0` holds exactly when the
normalized sign is `-1` (a negative-signed all-zero input such as `"-0"` has
`m = 0` and is caught by the zero test). -/
def scaleQuantityWithMinimum (s : String) (decimals : Nat) : Option Int :=
  (normalizeDecimalInput s.data).map fun norm =>
    let scaled := scaledFromNorm norm decimals
    if scaled ≠ 0 then scaled
    else if numericZeroOrNonfinite norm then scaled
    else if norm.sign = -1 then -1 else 1

/-- Character-level body of `scaledToDecimalString` from `decimal.ts`
(bigint input path). -/
def scaledToChars (n : Int) (decimals : Nat) : List Char :=
  let neg := n < 0
  let digits0 := natToChars n.natAbs
  if decimals = 0 then (if neg then '-' :: digits0 else digits0)
  else
    let digits := if digits0.length ≤ decimals
      then List.replicate (decimals + 1 - digits0.length) '0' ++ digits0
      else digits0
    let splitIndex := digits.length - decimals
    let integerPart0 := digits.take splitIndex
    let integerPart := if integerPart0 = [] then ['0'] else integerPart0
    let fractionPart := digits.drop splitIndex
    -- `.replace(/\.0+$/, "").replace(/\.$/, "")`: the fraction (never empty
    -- here) is removed together with the point exactly when it is all zeros.
    let result := if fractionPart.all (fun c => c = '0')
      then integerPart else integerPart ++ '.' :: fractionPart
    if neg then '-' :: result else result

/-- `scaledToDecimalString` from `decimal.ts` (bigint input path). -/
def scaledToDecimalString (n : Int) (decimals : Nat) : String :=
  String.mk (scaledToChars n decimals)

/-- The unsigned part of `scaledToChars` (rendering of the absolute value);
`scaledToChars n d` is this for `n.natAbs` with a `'-'` prefix when `n < 0`. -/
def scaledAbsChars (m : Nat) (decimals : Nat) : List Char :=
  let digits0 := natToChars m
  if decimals = 0 then digits0
  else
    let digits := if digits0.length ≤ decimals
      then List.replicate (decimals + 1 - digits0.length) '0' ++ digits0
      else digits0
    let splitIndex := digits.length - decimals
    let integerPart0 := digits.take splitIndex
    let integerPart := if integerPart0 = [] then ['0'] else integerPart0
    let fractionPart := digits.drop splitIndex
    if fractionPart.all (fun c => c = '0')
      then integerPart else integerPart ++ '.' :: fractionPart

/-- The zero-padded digit string `scaledAbsChars` splits (its `digits` local,
for a nonzero decimal count). -/
def scaledPadded (m d : Nat) : List Char :=
  if (natToChars m).length ≤ d
    then List.replicate (d + 1 - (natToChars m).length) '0' ++ natToChars m
    else natToChars m

/-- The integer-part slice of `scaledAbsChars` (its `integerPart0` local). -/
def scaledIntPart (m d : Nat) : List Char :=
  (scaledPadded m d).take ((scaledPadded m d).length - d)

/-- The fraction-part slice of `scaledAbsChars` (its `fractionPart` local). -/
def scaledFracPart (m d : Nat) : List Char :=
  (scaledPadded m d).drop ((scaledPadded m d).length - d)

/-- Sign of the numeric value a decimal string denotes (`0` when the value is
zero): the sign `Number(value)` would report for a valid decimal string. -/
def decimalSign (s : String) : Option Int :=
  (normalizeDecimalInput s.data).map fun n => if n.digits = ['0'] then 0 else n.sign

/-! ### JS insertion-ordered `Map`

`Map` keyed by `κ` with values `ν`, modelled as an association list in
insertion order: `set` on an existing key updates the value in place,
`set` on a new key appends, `delete` removes, and `entries()`/`values()`
iterate in that order — exactly the JS `Map` contract. -/

/-- JS `map.set(k, v)`. -/
def jsMapSet {κ ν : Type} [DecidableEq κ] (m : List (κ × ν)) (k : κ) (v : ν) :
    List (κ × ν) :=
  if m.any (fun x => x.1 = k) then m.map (fun x => if x.1 = k then (k, v) else x)
  else m ++ [(k, v)]

/-- JS `map.delete(k)`. -/
def jsMapDelete {κ ν : Type} [DecidableEq κ] (m : List (κ × ν)) (k : κ) :
    List (κ × ν) :=
  m.filter (fun x => x.1 ≠ k)

/-- JS `map.get(k)` (also the value `find`-style reads observe). -/
def jsMapGet {κ ν : Type} [DecidableEq κ] (m : List (κ × ν)) (k : κ) : Option ν :=
  (m.find? (fun x => x.1 = k)).map (fun x => x.2)

/-! ### Order-book reconciliation (`gateway.ts`) -/

/-- One order-book level.  The source stores `price` and `size` as decimal
strings; they are modelled by the exact rational values those strings denote
(every comparison in the source goes through `Number(...)`). -/
structure Level where
  price : ℚ
  size : ℚ
deriving Repr, DecidableEq

inductive Side
  | bid
  | ask
deriving Repr, DecidableEq

/-- `normalizeLevels` from `gateway.ts`: converts array- or object-shaped raw
levels to `{price, size}` records.  On the structured `Level` model that
re-shaping is the identity. -/
def normalizeLevels (raw : List Level) : List Level := raw

/-- `mergeLevels` from `gateway.ts`: existing levels are loaded into a
price-keyed JS `Map`, each update with `size <= 0` deletes its price level and
any other update replaces it, and the map entries are read back in insertion
order. -/
def mergeLevels (existing updates : List Level) : List Level :=
  let base := existing.foldl (fun m lv => jsMapSet m lv.price lv.size) []
  let merged := updates.foldl
    (fun m lv => if lv.size ≤ 0 then jsMapDelete m lv.price else jsMapSet m lv.price lv.size)
    base
  merged.map (fun e => { price := e.1, size := e.2 })

/-- The JS sort comparator of `sortAndTrimLevels` as a relation: `a` may stay
before `b` iff the comparator returns `<= 0` on `(a, b)` (bids descending,
asks ascending by price). -/
def levelLE (side : Side) (a b : Level) : Prop :=
  if side = Side.bid then b.price ≤ a.price else a.price ≤ b.price

instance levelLEDecidable (side : Side) : DecidableRel (levelLE side) := by
  intro a b
  unfold levelLE
  infer_instance

/-- `sortAndTrimLevels` from `gateway.ts`: stable sort by the side comparator,
then `slice(0, Math.max(1, limit))`.  JS `Array.prototype.sort` is stable, and
a stable sort under a consistent comparator has a unique output, so it is
modelled by a stable insertion sort. -/
def sortAndTrimLevels (levels : List Level) (side : Side) (limit : Nat := 200) :
    List Level :=
  (List.insertionSort (levelLE side) levels).take (max 1 limit)

/-- First-match lookup of a price level, the value a JS `Map` keyed by price
holds for `p` in a level list with distinct prices. -/
def levelLookup (l : List Level) (p : ℚ) : Option ℚ :=
  (l.find? (fun x => x.price = p)).map (fun x => x.size)

/-- The strict version of the side comparator: `a` must come before `b`. -/
def levelLT (side : Side) (a b : Level) : Prop :=
  if side = Side.bid then b.price < a.price else a.price < b.price

/-- Pairwise-distinct prices on a level list. -/
def nodupPrices (l : List Level) : Prop :=
  l.Pairwise (fun a b => a.price ≠ b.price)

/-- Every present level has strictly positive size. -/
def levelsPositive (l : List Level) : Prop := ∀ lv ∈ l, 0 < lv.size

/-- Net effect of a list of level updates on the value stored at price `p`,
starting from `v` (`none` = absent): the final `size <= 0` update deletes,
the final positive one replaces. -/
def mergeResultAt (u : List Level) (p : ℚ) (v : Option ℚ) : Option ℚ :=
  u.foldl
    (fun acc lv =>
      if p = lv.price then (if lv.size ≤ 0 then none else some lv.size) else acc) v

/-- Pairwise-distinct keys of an association-list map. -/
def jsMapKeysND {κ ν : Type} (m : List (κ × ν)) : Prop :=
  m.Pairwise (fun a b => a.1 ≠ b.1)

/-- Raw `message.order_book` payload of a WS order-book message.  In the update
handler a side is only processed when `Array.isArray` holds, hence the
`Option` on each side; the snapshot handler reads `bids ?? []`. -/
structure RawOrderBook where
  offset : Option Int
  bids : Option (List Level)
  asks : Option (List Level)
deriving Repr, DecidableEq

/-- A WS order-book message (`subscribed/order_book` or `update/order_book`). -/
structure OrderBookMessage where
  order_book : Option RawOrderBook
  offset : Option Int
  timestamp : Option Int
deriving Repr, DecidableEq

/-- The book-related gateway state: `this.orderBook`,
`this.lastOrderBookOffset`, `this.lastOrderBookTimestamp`. -/
structure OrderBookSnapshot where
  market_id : Int
  offset : Int
  bids : List Level
  asks : List Level
deriving Repr, DecidableEq

structure BookState where
  orderBook : Option OrderBookSnapshot
  lastOrderBookOffset : Int
  lastOrderBookTimestamp : Int
deriving Repr, DecidableEq

/-- The order-book invariant of the spec: bids strictly descending, asks
strictly ascending (which also rules out duplicate price levels), and all
sizes positive. -/
def bookInvariant (book : OrderBookSnapshot) : Prop :=
  book.bids.Pairwise (levelLT Side.bid) ∧ book.asks.Pairwise (levelLT Side.ask) ∧
  levelsPositive book.bids ∧ levelsPositive book.asks

/-- Both sides of any stored book hold at most 200 levels. -/
def depthInv (st : BookState) : Prop :=
  ∀ book ∈ st.orderBook, book.bids.length ≤ 200 ∧ book.asks.length ≤ 200

instance nodupPricesDecidable (l : List Level) : Decidable (nodupPrices l) := by
  unfold nodupPrices
  infer_instance

instance levelsPositiveDecidable (l : List Level) : Decidable (levelsPositive l) := by
  unfold levelsPositive
  infer_instance

instance levelLTDecidable (side : Side) : DecidableRel (levelLT side) := by
  intro a b
  unfold levelLT
  infer_instance

instance bookInvariantDecidable (book : OrderBookSnapshot) :
    Decidable (bookInvariant book) := by
  unfold bookInvariant
  infer_instance

/-- `Number(message.offset ?? message.order_book?.offset ?? 0)`. -/
def incomingOffsetOf (msg : OrderBookMessage) : Int :=
  match msg.offset with
  | some o => o
  | none =>
    match msg.order_book with
    | some raw => raw.offset.getD 0
    | none => 0

/-- `handleOrderBookSnapshot` from `gateway.ts`.  `now` stands for `Date.now()`;
JS truthiness of a number (`x` is falsy iff `x` is `0`) is modelled by
`x ≠ 0` tests. -/
def handleOrderBookSnapshot (st : BookState) (marketId : Option Int)
    (msg : OrderBookMessage) (now : Int) : BookState :=
  match msg.order_book with
  | none => st
  | some raw =>
    let incomingOffset := incomingOffsetOf msg
    let incomingTs := msg.timestamp.getD 0
    if st.lastOrderBookOffset ≠ 0 ∧ incomingOffset ≠ 0 ∧
        incomingOffset < st.lastOrderBookOffset then st
    else if incomingOffset = st.lastOrderBookOffset ∧ incomingTs ≠ 0 ∧
        incomingTs ≤ st.lastOrderBookTimestamp then st
    else
      let snapshot : OrderBookSnapshot :=
        { market_id := marketId.getD 0
          offset := raw.offset.getD now
          bids := sortAndTrimLevels (normalizeLevels (raw.bids.getD [])) Side.bid
          asks := sortAndTrimLevels (normalizeLevels (raw.asks.getD [])) Side.ask }
      { orderBook := some snapshot
        lastOrderBookOffset := snapshot.offset
        lastOrderBookTimestamp := if incomingTs ≠ 0 then incomingTs else now }

/-- `handleOrderBookUpdate` from `gateway.ts`. -/
def handleOrderBookUpdate (st : BookState) (msg : OrderBookMessage) (now : Int) :
    BookState :=
  match st.orderBook with
  | none => st
  | some book =>
    let incomingOffset := incomingOffsetOf msg
    let incomingTs := msg.timestamp.getD 0
    if st.lastOrderBookOffset ≠ 0 ∧ incomingOffset ≠ 0 ∧
        incomingOffset < st.lastOrderBookOffset then st
    else if incomingOffset = st.lastOrderBookOffset ∧ incomingTs ≠ 0 ∧
        incomingTs ≤ st.lastOrderBookTimestamp then st
    else
      match msg.order_book with
      | none => st
      | some update =>
        let asks := match update.asks with
          | some rawAsks =>
            sortAndTrimLevels (mergeLevels book.asks (normalizeLevels rawAsks)) Side.ask
          | none => book.asks
        let bids := match update.bids with
          | some rawBids =>
            sortAndTrimLevels (mergeLevels book.bids (normalizeLevels rawBids)) Side.bid
          | none => book.bids
        let newOffset := update.offset.getD book.offset
        { orderBook := some { book with asks := asks, bids := bids, offset := newOffset }
          lastOrderBookOffset := newOffset
          lastOrderBookTimestamp := if incomingTs ≠ 0 then incomingTs else now }

/-! ### Live-order map reconciliation (`handleAccountOrders`) -/

/-- An order payload carried by `account_all_orders` messages; only the fields
`handleAccountOrders` reads are modelled. -/
structure LighterOrder where
  order_index : Option Int
  order_id : Option Int
  client_order_index : Option Int
  status : Option String
deriving Repr, DecidableEq

/-- `String(order.order_index ?? order.order_id ?? order.client_order_index ?? "")`. -/
def orderKey (o : LighterOrder) : String :=
  match o.order_index with
  | some n => toString n
  | none =>
    match o.order_id with
    | some n => toString n
    | none =>
      match o.client_order_index with
      | some n => toString n
      | none => ""

/-- The terminal-status set of `handleAccountOrders`:
`new Set(["filled", "canceled", "cancelled", "expired"])`. -/
def terminalStatuses : List String := ["filled", "canceled", "cancelled", "expired"]

/-- JS `toLowerCase()` for the ASCII status strings, applied character-wise. -/
def lowerString (s : String) : String := String.mk (s.data.map Char.toLower)

/-- Per-order body of the `handleAccountOrders` loop. -/
def handleAccountOrdersStep (m : List (String × LighterOrder)) (o : LighterOrder) :
    List (String × LighterOrder) :=
  let key := orderKey o
  let status := lowerString (o.status.getD "")
  if key = "" then m
  else if terminalStatuses.contains status then jsMapDelete m key
  else jsMapSet m key o

/-- `handleAccountOrders` from `gateway.ts` acting on `this.orderMap`.
`buckets` models `Object.values(message.orders ?? {})` with non-array buckets
already dropped (`flatMap(entry => Array.isArray(entry) ? entry : [])`); a
`null` message or missing `orders` yields no buckets. -/
def handleAccountOrders (m : List (String × LighterOrder))
    (buckets : List (List LighterOrder)) : List (String × LighterOrder) :=
  buckets.flatten.foldl handleAccountOrdersStep m

/-! ### Position reconciliation (`handleAccountAll` / `handleAccountMarket`) -/

/-- A position payload.  `market_id` is read through `Number(...)` and checked
with `Number.isFinite`; `none` models a missing or non-finite id.  `sign` and
`position` are read as `Number(p.sign ?? 0)` / `Number(p.position ?? 0)`. -/
structure LighterPosition where
  market_id : Option Int
  sign : Option Int
  position : Option ℚ
deriving Repr, DecidableEq

/-- The literal `1e-12` of the account handlers, i.e. the rational
`1 / 10 ^ 12` (built structurally so that comparisons reduce; the IEEE double
written `1e-12` differs from it only by a relative error below `2 ^ (-52)`,
and the development only relies on the threshold being positive). -/
def positionEpsilon : ℚ := ⟨1, 10 ^ 12, by norm_num, Nat.coprime_one_left _⟩

/-- The removal test shared by both account handlers:
`sign === 0 || Math.abs(size) < 1e-12`. -/
def positionShouldRemove (p : LighterPosition) : Bool :=
  p.sign.getD 0 = 0 ∨ |p.position.getD 0| < positionEpsilon

/-- `handleAccountAll` from `gateway.ts` acting on `this.positions`.
`msgPositions = none` models a message without its own `positions` property
(the `hasOwnProperty` guard); otherwise the incoming array/object values are
merged into a market-keyed JS `Map` seeded from the current positions. -/
def handleAccountAll (positions : List LighterPosition)
    (msgPositions : Option (List LighterPosition)) : List LighterPosition :=
  match msgPositions with
  | none => positions
  | some incoming =>
    let byMarket := positions.foldl
      (fun m p =>
        match p.market_id with
        | some mid => jsMapSet m mid p
        | none => m) []
    let merged := incoming.foldl
      (fun m p =>
        match p.market_id with
        | none => m
        | some mid =>
          if positionShouldRemove p then jsMapDelete m mid else jsMapSet m mid p)
      byMarket
    merged.map (fun e => e.2)

/-- `handleAccountMarket` from `gateway.ts` acting on `this.positions`. -/
def handleAccountMarket (positions : List LighterPosition)
    (msgPosition : Option LighterPosition) : List LighterPosition :=
  match msgPosition with
  | none => positions
  | some p =>
    match p.market_id with
    | none => positions
    | some mid =>
      if positionShouldRemove p then
        positions.filter (fun q => q.market_id ≠ some mid)
      else if positions.any (fun q => q.market_id = some mid) then
        positions.map (fun q => if q.market_id = some mid then p else q)
      else positions ++ [p]

/-! ### Nonce-protected submission flows -/

/-- Modelled from the spec: `HttpNonceManager`
(`src/exchanges/lighter/nonce-manager.ts` is not part of the source snapshot;
only its caller `gateway.ts` is).  Spec §4.2: one counter per signing key;
`next()` returns the current counter for the selected key and advances it
optimistically; `acknowledgeFailure(key)` decrements that counter so the nonce
can be reused.  The key selection that the real `next()` performs internally is
passed in explicitly as `key`. -/
structure NonceManager where
  counters : Int → Int

def NonceManager.next (nm : NonceManager) (key : Int) : Int × NonceManager :=
  (nm.counters key,
   ⟨fun k => if k = key then nm.counters k + 1 else nm.counters k⟩)

def NonceManager.acknowledgeFailure (nm : NonceManager) (key : Int) : NonceManager :=
  ⟨fun k => if k = key then nm.counters k - 1 else nm.counters k⟩

/-- The nonce-relevant control flow of `LighterGateway.createOrder`: acquire a
nonce, then run the fallible steps (`signer.signCreateOrder`,
`ensureAuthToken`, `http.sendTransaction`); any throw lands in the `catch`
which calls `acknowledgeFailure` for the same key and rethrows.  Each `*Ok`
flag tells whether the corresponding awaited step returned normally.  The
returned `Bool` is `true` iff the call returned normally (no error
propagated). -/
def createOrderFlow (nm : NonceManager) (key : Int) (signOk authOk sendOk : Bool) :
    NonceManager × Bool :=
  let nm1 := (nm.next key).2
  if signOk = false then (nm1.acknowledgeFailure key, false)
  else if authOk = false then (nm1.acknowledgeFailure key, false)
  else if sendOk = false then (nm1.acknowledgeFailure key, false)
  else (nm1, true)

/-- The nonce-relevant control flow of `LighterGateway.cancelOrder`, including
the optimistic local removal of the order from `this.orderMap` on success. -/
def cancelOrderFlow (nm : NonceManager) (key : Int) (signOk authOk sendOk : Bool)
    (orderMap : List (String × LighterOrder)) (orderId : String) :
    NonceManager × Bool × List (String × LighterOrder) :=
  let nm1 := (nm.next key).2
  if signOk = false then (nm1.acknowledgeFailure key, false, orderMap)
  else if authOk = false then (nm1.acknowledgeFailure key, false, orderMap)
  else if sendOk = false then (nm1.acknowledgeFailure key, false, orderMap)
  else (nm1, true, jsMapDelete orderMap orderId)

/-- The nonce-relevant control flow of `LighterGateway.cancelAllOrders`. -/
def cancelAllOrdersFlow (nm : NonceManager) (key : Int)
    (signOk authOk sendOk : Bool) : NonceManager × Bool :=
  let nm1 := (nm.next key).2
  if signOk = false then (nm1.acknowledgeFailure key, false)
  else if authOk = false then (nm1.acknowledgeFailure key, false)
  else if sendOk = false then (nm1.acknowledgeFailure key, false)
  else (nm1, true)

end Lighter

/-! ### Rate-limit controller (`src/core/lib/rate-limit.ts`) -/

namespace RateLimit

inductive RLState
  | normal
  | degraded
  | paused
deriving Repr, DecidableEq

inductive RateLimitDecision
  | run
  | skip
  | paused
deriving Repr, DecidableEq

/-- Constructor configuration: `baseInterval`, `pauseMs`, `recoveryMs`. -/
structure Config where
  baseInterval : Int
  pauseMs : Int
  recoveryMs : Int
deriving Repr, DecidableEq

/-- Mutable fields of `RateLimitController`. -/
structure Controller where
  state : RLState
  pausedUntil : Option Int
  lastCycleAt : Int
  lastRateLimitAt : Int
  entriesSuppressed : Bool
deriving Repr, DecidableEq

def Controller.shouldBlockEntries (c : Controller) : Bool :=
  c.entriesSuppressed || c.state = RLState.paused

/-- `currentInterval`. -/
def Controller.currentInterval (c : Controller) (cfg : Config) : Int :=
  if c.state = RLState.degraded then 2 * cfg.baseInterval
  else if c.state = RLState.paused then 2 * cfg.baseInterval
  else cfg.baseInterval

/-- `registerRateLimit(source)`; `now` stands for `Date.now()`.  Logging is
dropped; `suppressEntries` reduces to setting the flag. -/
def Controller.registerRateLimit (c : Controller) (cfg : Config) (now : Int) :
    Controller :=
  match c.state with
  | RLState.normal =>
    { c with state := RLState.degraded, lastRateLimitAt := now, lastCycleAt := now,
             entriesSuppressed := true }
  | RLState.degraded =>
    { c with state := RLState.paused, pausedUntil := some (now + cfg.pauseMs),
             lastRateLimitAt := now, entriesSuppressed := true }
  | RLState.paused =>
    { c with pausedUntil := some (now + cfg.pauseMs), lastRateLimitAt := now,
             entriesSuppressed := true }

/-- `beforeCycle()`: in `paused`, either demote past the deadline and fall
through to the interval check, or record the cycle time and report `paused`;
otherwise enforce the minimum inter-cycle interval. -/
def Controller.beforeCycle (c : Controller) (cfg : Config) (now : Int) :
    RateLimitDecision × Controller :=
  let c1 :=
    if c.state = RLState.paused then
      match c.pausedUntil with
      | some deadline =>
        if now ≥ deadline then { c with state := RLState.degraded, pausedUntil := none }
        else c
      | none => c
    else c
  if c1.state = RLState.paused then (RateLimitDecision.paused, { c1 with lastCycleAt := now })
  else
    let interval := c1.currentInterval cfg
    if now - c1.lastCycleAt < interval then (RateLimitDecision.skip, c1)
    else (RateLimitDecision.run, { c1 with lastCycleAt := now })

end RateLimit


/-! ## Lemmas about the JS `Map` model -/

namespace Lighter

variable {κ ν : Type} [DecidableEq κ]

theorem jsMapSet_of_any_eq_false {m : List (κ × ν)} {k : κ} (v : ν)
    (h : m.any (fun x => x.1 = k) = false) : jsMapSet m k v = m ++ [(k, v)] := by
  simp [jsMapSet, h]

theorem jsMapSet_of_any_eq_true {m : List (κ × ν)} {k : κ} (v : ν)
    (h : m.any (fun x => x.1 = k) = true) :
    jsMapSet m k v = m.map (fun x => if x.1 = k then (k, v) else x) := by
  simp [jsMapSet, h]

theorem jsMapGet_nil (k : κ) : jsMapGet ([] : List (κ × ν)) k = none := rfl

theorem jsMapGet_cons (x : κ × ν) (m : List (κ × ν)) (q : κ) :
    jsMapGet (x :: m) q = if x.1 = q then some x.2 else jsMapGet m q := by
  by_cases h : x.1 = q <;> simp [jsMapGet, List.find?_cons, h]

theorem jsMapGet_append (m l : List (κ × ν)) (q : κ) :
    jsMapGet (m ++ l) q = (jsMapGet m q).or (jsMapGet l q) := by
  induction m with
  | nil => simp [jsMapGet]
  | cons x t ih =>
    by_cases h : x.1 = q <;> simp [jsMapGet_cons, h, ih]

theorem jsMapAny_eq_false {m : List (κ × ν)} {k : κ} :
    (m.any (fun x => x.1 = k) = false) ↔ ∀ x ∈ m, x.1 ≠ k := by
  simp only [List.any_eq_false, decide_eq_true_eq]

theorem jsMapGet_map_replace (t : List (κ × ν)) (k : κ) (v : ν) {q : κ}
    (h : ¬ q = k) :
    jsMapGet (t.map (fun x => if x.1 = k then (k, v) else x)) q = jsMapGet t q := by
  induction t with
  | nil => rfl
  | cons x t ih =>
    have hkq : ¬ k = q := fun hc => h hc.symm
    by_cases hx : x.1 = k
    · have hxq : ¬ x.1 = q := by rw [hx]; exact hkq
      simp only [List.map_cons, if_pos hx]
      rw [jsMapGet_cons, jsMapGet_cons, if_neg hkq, if_neg hxq, ih]
    · simp only [List.map_cons, if_neg hx]
      rw [jsMapGet_cons, jsMapGet_cons, ih]

theorem jsMapGet_set (m : List (κ × ν)) (k : κ) (v : ν) (q : κ) :
    jsMapGet (jsMapSet m k v) q = if q = k then some v else jsMapGet m q := by
  by_cases hany : m.any (fun x => x.1 = k) = true
  · rw [jsMapSet_of_any_eq_true v hany]
    by_cases hq : q = k
    · subst hq
      rw [if_pos rfl]
      induction m with
      | nil => simp at hany
      | cons x t ih =>
        by_cases hx : x.1 = q
        · simp only [List.map_cons, if_pos hx]
          rw [jsMapGet_cons]
          simp
        · have ht : t.any (fun x => x.1 = q) = true := by
            rw [List.any_cons] at hany
            rcases (Bool.or_eq_true _ _).mp hany with h | h
            · exact absurd (of_decide_eq_true h) hx
            · exact h
          simp only [List.map_cons, if_neg hx]
          rw [jsMapGet_cons, if_neg hx]
          exact ih ht
    · rw [jsMapGet_map_replace m k v hq, if_neg hq]
  · have hany' : m.any (fun x => x.1 = k) = false := Bool.eq_false_iff.mpr hany
    rw [jsMapSet_of_any_eq_false v hany', jsMapGet_append]
    by_cases hq : q = k
    · subst hq
      have hnone : jsMapGet m q = none := by
        unfold jsMapGet
        rw [Option.map_eq_none', List.find?_eq_none]
        intro x hx
        simpa using jsMapAny_eq_false.mp hany' x hx
      rw [hnone, if_pos rfl, jsMapGet_cons, if_pos rfl]
      rfl
    · have hone : jsMapGet [(k, v)] q = none := by
        rw [jsMapGet_cons, if_neg (fun hc : k = q => hq hc.symm), jsMapGet_nil]
      rw [hone, if_neg hq, Option.or_none]

theorem jsMapGet_delete (m : List (κ × ν)) (k q : κ) :
    jsMapGet (jsMapDelete m k) q = if q = k then none else jsMapGet m q := by
  induction m with
  | nil => simp [jsMapDelete, jsMapGet_nil]
  | cons x t ih =>
    by_cases hx : x.1 = k
    · have hfilter : jsMapDelete (x :: t) k = jsMapDelete t k := by
        simp [jsMapDelete, hx]
      rw [hfilter, ih, jsMapGet_cons]
      by_cases hq : q = k
      · rw [if_pos hq, if_pos hq]
      · have hxq : ¬ x.1 = q := by rw [hx]; exact fun hc => hq hc.symm
        rw [if_neg hxq, if_neg hq]
    · have hfilter : jsMapDelete (x :: t) k = x :: jsMapDelete t k := by
        simp [jsMapDelete, hx]
      rw [hfilter, jsMapGet_cons, ih, jsMapGet_cons]
      by_cases hq : q = k
      · have hxq : ¬ x.1 = q := fun hc => hx (hc.trans hq)
        rw [if_neg hxq, if_pos hq, if_pos hq]
      · rw [if_neg hq, if_neg hq]

theorem mem_jsMapSet {m : List (κ × ν)} {k : κ} {v : ν} {x : κ × ν}
    (h : x ∈ jsMapSet m k v) : x ∈ m ∨ x = (k, v) := by
  by_cases hany : m.any (fun e => e.1 = k) = true
  · rw [jsMapSet_of_any_eq_true v hany] at h
    obtain ⟨y, hy, hfy⟩ := List.mem_map.mp h
    by_cases hyk : y.1 = k
    · right
      rw [← hfy, if_pos hyk]
    · left
      have hxy : x = y := by rw [← hfy, if_neg hyk]
      exact hxy ▸ hy
  · have hany' : m.any (fun e => e.1 = k) = false := Bool.eq_false_iff.mpr hany
    rw [jsMapSet_of_any_eq_false v hany'] at h
    rcases List.mem_append.mp h with h | h
    · exact Or.inl h
    · exact Or.inr (by simpa using h)

theorem mem_jsMapDelete {m : List (κ × ν)} {k : κ} {x : κ × ν}
    (h : x ∈ jsMapDelete m k) : x ∈ m :=
  List.mem_of_mem_filter h

theorem jsMapKeysND_nil : jsMapKeysND ([] : List (κ × ν)) := List.Pairwise.nil

theorem jsMapKeysND_set {m : List (κ × ν)} (k : κ) (v : ν)
    (h : jsMapKeysND m) : jsMapKeysND (jsMapSet m k v) := by
  by_cases hany : m.any (fun e => e.1 = k) = true
  · rw [jsMapSet_of_any_eq_true v hany]
    unfold jsMapKeysND at *
    have hkeys : ∀ a : κ × ν, ((if a.1 = k then (k, v) else a) : κ × ν).1 = a.1 := by
      intro a
      by_cases ha : a.1 = k
      · rw [if_pos ha]; exact ha.symm
      · rw [if_neg ha]
    refine List.Pairwise.map _ ?_ h
    intro a b hne
    rw [hkeys a, hkeys b]
    exact hne
  · have hany' : m.any (fun e => e.1 = k) = false := Bool.eq_false_iff.mpr hany
    rw [jsMapSet_of_any_eq_false v hany']
    unfold jsMapKeysND at *
    rw [List.pairwise_append]
    refine ⟨h, List.pairwise_singleton _ _, ?_⟩
    intro a ha b hb
    have hb' : b = (k, v) := by simpa using hb
    subst hb'
    exact jsMapAny_eq_false.mp hany' a ha

theorem jsMapKeysND_delete {m : List (κ × ν)} (k : κ)
    (h : jsMapKeysND m) : jsMapKeysND (jsMapDelete m k) :=
  List.Pairwise.sublist (List.filter_sublist m) h

theorem jsMapGet_eq_some_of_mem {m : List (κ × ν)} {k : κ} {v : ν}
    (hnd : jsMapKeysND m) (h : (k, v) ∈ m) : jsMapGet m k = some v := by
  induction m with
  | nil => simp at h
  | cons x t ih =>
    rcases List.mem_cons.mp h with h | h
    · rw [← h, jsMapGet_cons]
      simp
    · have hx : x.1 ≠ k := by
        have := (List.pairwise_cons.mp hnd).1 (k, v) h
        simpa using this
      rw [jsMapGet_cons, if_neg hx]
      exact ih (List.pairwise_cons.mp hnd).2 h

theorem mem_of_jsMapGet_eq_some {m : List (κ × ν)} {k : κ} {v : ν}
    (h : jsMapGet m k = some v) : (k, v) ∈ m := by
  unfold jsMapGet at h
  obtain ⟨x, hfind, hv⟩ := Option.map_eq_some'.mp h
  have hx : x ∈ m := List.mem_of_find?_eq_some hfind
  have hk : x.1 = k := by simpa using List.find?_some hfind
  have : x = (k, v) := Prod.ext hk hv
  exact this ▸ hx

theorem foldl_jsMapSet_of_keysND (l : List (κ × ν)) (acc : List (κ × ν))
    (h : jsMapKeysND (acc ++ l)) :
    l.foldl (fun m e => jsMapSet m e.1 e.2) acc = acc ++ l := by
  induction l generalizing acc with
  | nil => simp
  | cons e t ih =>
    have hcross : ∀ a ∈ acc, a.1 ≠ e.1 := by
      intro a ha
      have := (List.pairwise_append.mp h).2.2 a ha e (by simp)
      exact this
    have hany : acc.any (fun x => x.1 = e.1) = false := by
      simp only [List.any_eq_false]
      intro a ha
      simpa using hcross a ha
    have hstep : jsMapSet acc e.1 e.2 = acc ++ [e] := by
      rw [jsMapSet_of_any_eq_false _ hany]
    have hrearrange : (acc ++ [e]) ++ t = acc ++ e :: t := by
      simp
    calc (e :: t).foldl (fun m e => jsMapSet m e.1 e.2) acc
        = t.foldl (fun m e => jsMapSet m e.1 e.2) (jsMapSet acc e.1 e.2) := rfl
      _ = t.foldl (fun m e => jsMapSet m e.1 e.2) (acc ++ [e]) := by rw [hstep]
      _ = (acc ++ [e]) ++ t := ih (acc ++ [e]) (by rw [hrearrange]; exact h)
      _ = acc ++ e :: t := hrearrange

end Lighter

/-! ## Nonce-manager rollback (claim C8) -/

namespace Lighter

theorem nonce_rollback_counters (nm : NonceManager) (key k : Int) :
    (((nm.next key).2).acknowledgeFailure key).counters k = nm.counters k := by
  simp only [NonceManager.next, NonceManager.acknowledgeFailure]
  by_cases h : k = key <;> simp [h]

theorem nonce_next_counters (nm : NonceManager) (key k : Int) :
    ((nm.next key).2).counters k = if k = key then nm.counters k + 1 else nm.counters k :=
  rfl

theorem createOrderFlow_eq_fail (nm : NonceManager) (key : Int) {s a o : Bool}
    (h : (s && a && o) = false) :
    createOrderFlow nm key s a o = (((nm.next key).2).acknowledgeFailure key, false) := by
  cases s <;> cases a <;> cases o <;> simp_all [createOrderFlow]

theorem createOrderFlow_eq_ok (nm : NonceManager) (key : Int) {s a o : Bool}
    (h : (s && a && o) = true) :
    createOrderFlow nm key s a o = ((nm.next key).2, true) := by
  cases s <;> cases a <;> cases o <;> simp_all [createOrderFlow]

theorem cancelOrderFlow_eq_fail (nm : NonceManager) (key : Int) {s a o : Bool}
    (m : List (String × LighterOrder)) (oid : String) (h : (s && a && o) = false) :
    cancelOrderFlow nm key s a o m oid =
      (((nm.next key).2).acknowledgeFailure key, false, m) := by
  cases s <;> cases a <;> cases o <;> simp_all [cancelOrderFlow]

theorem cancelOrderFlow_eq_ok (nm : NonceManager) (key : Int) {s a o : Bool}
    (m : List (String × LighterOrder)) (oid : String) (h : (s && a && o) = true) :
    cancelOrderFlow nm key s a o m oid = ((nm.next key).2, true, jsMapDelete m oid) := by
  cases s <;> cases a <;> cases o <;> simp_all [cancelOrderFlow]

theorem cancelAllOrdersFlow_eq_fail (nm : NonceManager) (key : Int) {s a o : Bool}
    (h : (s && a && o) = false) :
    cancelAllOrdersFlow nm key s a o = (((nm.next key).2).acknowledgeFailure key, false) := by
  cases s <;> cases a <;> cases o <;> simp_all [cancelAllOrdersFlow]

theorem cancelAllOrdersFlow_eq_ok (nm : NonceManager) (key : Int) {s a o : Bool}
    (h : (s && a && o) = true) :
    cancelAllOrdersFlow nm key s a o = ((nm.next key).2, true) := by
  cases s <;> cases a <;> cases o <;> simp_all [cancelAllOrdersFlow]

end Lighter

open Lighter RateLimit in
/-- C8: each of `createOrder`, `cancelOrder`, `cancelAllOrders` acquires
exactly one nonce per invocation; on any failure of signing, auth-token
refresh or submission after the nonce is acquired, the flow calls
`acknowledgeFailure` for the same key before propagating the error, so every
counter is restored to its pre-call value; on success exactly the selected
key's counter has advanced by one. -/
theorem nonce_flows_rollback (nm : NonceManager) (key : Int) (s a o : Bool)
    (m : List (String × LighterOrder)) (oid : String) :
    ((s && a && o) = false →
      (createOrderFlow nm key s a o).2 = false ∧
      (∀ k, (createOrderFlow nm key s a o).1.counters k = nm.counters k) ∧
      (cancelOrderFlow nm key s a o m oid).2.1 = false ∧
      (∀ k, (cancelOrderFlow nm key s a o m oid).1.counters k = nm.counters k) ∧
      (cancelAllOrdersFlow nm key s a o).2 = false ∧
      (∀ k, (cancelAllOrdersFlow nm key s a o).1.counters k = nm.counters k)) ∧
    ((s && a && o) = true →
      (createOrderFlow nm key s a o).2 = true ∧
      (createOrderFlow nm key s a o).1.counters key = nm.counters key + 1 ∧
      (∀ k, k ≠ key → (createOrderFlow nm key s a o).1.counters k = nm.counters k) ∧
      (cancelOrderFlow nm key s a o m oid).2.1 = true ∧
      (cancelOrderFlow nm key s a o m oid).1.counters key = nm.counters key + 1 ∧
      (cancelAllOrdersFlow nm key s a o).2 = true ∧
      (cancelAllOrdersFlow nm key s a o).1.counters key = nm.counters key + 1) ∧
    ((s && a && o) = false →
      (((createOrderFlow nm key s a o).1).next key).1 = (nm.next key).1) := by
  refine ⟨fun h => ?_, fun h => ?_, fun h => ?_⟩
  · rw [createOrderFlow_eq_fail nm key h, cancelOrderFlow_eq_fail nm key m oid h,
        cancelAllOrdersFlow_eq_fail nm key h]
    exact ⟨rfl, fun k => nonce_rollback_counters nm key k, rfl,
           fun k => nonce_rollback_counters nm key k, rfl,
           fun k => nonce_rollback_counters nm key k⟩
  · rw [createOrderFlow_eq_ok nm key h, cancelOrderFlow_eq_ok nm key m oid h,
        cancelAllOrdersFlow_eq_ok nm key h]
    refine ⟨rfl, by rw [nonce_next_counters]; simp, fun k hk => by
        rw [nonce_next_counters]; simp [hk], rfl,
      by rw [nonce_next_counters]; simp, rfl, by rw [nonce_next_counters]; simp⟩
  · rw [createOrderFlow_eq_fail nm key h]
    exact nonce_rollback_counters nm key key

open Lighter in
/-- Witness for C8: spec scenario C — the manager is at nonce `7`, a
submission fails after signing, and the next `next()` returns `7` again. -/
theorem nonce_flows_rollback_witness :
    (createOrderFlow ⟨fun _ => 7⟩ 0 true true false).2 = false ∧
    (((createOrderFlow ⟨fun _ => 7⟩ 0 true true false).1).next 0).1 = 7 ∧
    (((createOrderFlow ⟨fun _ => 7⟩ 0 true true true).1).next 0).1 = 8 := by
  have hfail := (nonce_flows_rollback ⟨fun _ => 7⟩ 0 true true false [] "").1 (by decide)
  have hreuse := (nonce_flows_rollback ⟨fun _ => 7⟩ 0 true true false [] "").2.2 (by decide)
  have hok := (nonce_flows_rollback ⟨fun _ => 7⟩ 0 true true true [] "").2.1 (by decide)
  refine ⟨hfail.1, ?_, ?_⟩
  · exact hreuse.trans rfl
  · show (createOrderFlow ⟨fun _ => 7⟩ 0 true true true).1.counters 0 = 8
    exact hok.2.1.trans rfl

/-! ## Rate-limit controller (claim C9) -/

open RateLimit in
/-- C9: `registerRateLimit` drives `normal → degraded` (suppressing new
position entries), `degraded → paused` with deadline `now + pauseMs`, and
extends the pause window to `now + pauseMs` when already `paused`; while
`degraded` or `paused` the controller's interval is `2 * baseInterval`, which
is exactly the minimum inter-cycle interval `beforeCycle` enforces in the
`degraded` state. -/
theorem registerRateLimit_transitions (c : Controller) (cfg : Config) (now : Int) :
    (c.state = RLState.normal →
      (c.registerRateLimit cfg now).state = RLState.degraded ∧
      (c.registerRateLimit cfg now).entriesSuppressed = true ∧
      (c.registerRateLimit cfg now).shouldBlockEntries = true) ∧
    (c.state = RLState.degraded →
      (c.registerRateLimit cfg now).state = RLState.paused ∧
      (c.registerRateLimit cfg now).pausedUntil = some (now + cfg.pauseMs)) ∧
    (c.state = RLState.paused →
      (c.registerRateLimit cfg now).state = RLState.paused ∧
      (c.registerRateLimit cfg now).pausedUntil = some (now + cfg.pauseMs)) ∧
    ((c.state = RLState.degraded ∨ c.state = RLState.paused) →
      c.currentInterval cfg = 2 * cfg.baseInterval) ∧
    (c.state = RLState.degraded →
      ((c.beforeCycle cfg now).1 = RateLimitDecision.skip ↔
        now - c.lastCycleAt < 2 * cfg.baseInterval)) := by
  rcases c with ⟨st, pu, lc, lr, es⟩
  cases st <;>
    simp [Controller.registerRateLimit, Controller.shouldBlockEntries,
          Controller.currentInterval, Controller.beforeCycle]
  by_cases hlt : now - lc < 2 * cfg.baseInterval <;> simp [hlt]

open RateLimit in
/-- Witness for C9 at concrete controllers in each of the three states. -/
theorem registerRateLimit_transitions_witness :
    (Controller.registerRateLimit ⟨RLState.normal, none, 0, 0, false⟩
        ⟨100, 30000, 60000⟩ 50).state = RLState.degraded ∧
    (Controller.registerRateLimit ⟨RLState.degraded, none, 0, 0, true⟩
        ⟨100, 30000, 60000⟩ 50).pausedUntil = some (50 + 30000) ∧
    (Controller.registerRateLimit ⟨RLState.paused, some 20, 0, 0, true⟩
        ⟨100, 30000, 60000⟩ 50).pausedUntil = some (50 + 30000) ∧
    Controller.currentInterval ⟨RLState.degraded, none, 0, 0, true⟩
        ⟨100, 30000, 60000⟩ = 2 * 100 ∧
    ((Controller.beforeCycle ⟨RLState.degraded, none, 0, 0, true⟩
        ⟨100, 30000, 60000⟩ 150).1 = RateLimitDecision.skip ↔
      (150 : Int) - 0 < 2 * 100) := by
  refine ⟨?_, ?_, ?_, ?_, ?_⟩
  · exact ((registerRateLimit_transitions ⟨RLState.normal, none, 0, 0, false⟩
      ⟨100, 30000, 60000⟩ 50).1 rfl).1
  · exact ((registerRateLimit_transitions ⟨RLState.degraded, none, 0, 0, true⟩
      ⟨100, 30000, 60000⟩ 50).2.1 rfl).2
  · exact ((registerRateLimit_transitions ⟨RLState.paused, some 20, 0, 0, true⟩
      ⟨100, 30000, 60000⟩ 50).2.2.1 rfl).2
  · exact (registerRateLimit_transitions ⟨RLState.degraded, none, 0, 0, true⟩
      ⟨100, 30000, 60000⟩ 50).2.2.2.1 (Or.inl rfl)
  · exact (registerRateLimit_transitions ⟨RLState.degraded, none, 0, 0, true⟩
      ⟨100, 30000, 60000⟩ 150).2.2.2.2 rfl

/-! ## Depth limit (claim C10) -/

namespace Lighter

theorem sortAndTrimLevels_length_le (l : List Level) (side : Side) :
    (sortAndTrimLevels l side).length ≤ 200 := by
  have h := List.length_take_le (max 1 200) (List.insertionSort (levelLE side) l)
  simpa [sortAndTrimLevels] using h

end Lighter

open Lighter in
/-- C10: `sortAndTrimLevels` truncates every side it produces to at most 200
levels, and both order-book handlers preserve the per-side ≤ 200 depth bound
of the stored book. -/
theorem orderBook_depth_bound (st : BookState) (marketId : Option Int)
    (msg : OrderBookMessage) (now : Int) (h : depthInv st) :
    (∀ l side, (sortAndTrimLevels l side).length ≤ 200) ∧
    depthInv (handleOrderBookSnapshot st marketId msg now) ∧
    depthInv (handleOrderBookUpdate st msg now) := by
  refine ⟨fun l side => sortAndTrimLevels_length_le l side, ?_, ?_⟩
  · rcases hob : msg.order_book with _ | raw
    · simpa [handleOrderBookSnapshot, hob] using h
    · by_cases h1 : st.lastOrderBookOffset ≠ 0 ∧ incomingOffsetOf msg ≠ 0 ∧
          incomingOffsetOf msg < st.lastOrderBookOffset
      · simpa [handleOrderBookSnapshot, hob, h1] using h
      · by_cases h2 : incomingOffsetOf msg = st.lastOrderBookOffset ∧
            msg.timestamp.getD 0 ≠ 0 ∧ msg.timestamp.getD 0 ≤ st.lastOrderBookTimestamp
        · simpa [handleOrderBookSnapshot, hob, h1, h2] using h
        · intro book hbook
          simp only [handleOrderBookSnapshot, hob, if_neg h1, if_neg h2,
            Option.mem_def, Option.some.injEq] at hbook
          rw [← hbook]
          exact ⟨sortAndTrimLevels_length_le _ _, sortAndTrimLevels_length_le _ _⟩
  · rcases hsb : st.orderBook with _ | book0
    · simpa [handleOrderBookUpdate, hsb] using h
    · by_cases h1 : st.lastOrderBookOffset ≠ 0 ∧ incomingOffsetOf msg ≠ 0 ∧
          incomingOffsetOf msg < st.lastOrderBookOffset
      · simpa [handleOrderBookUpdate, hsb, h1] using h
      · by_cases h2 : incomingOffsetOf msg = st.lastOrderBookOffset ∧
            msg.timestamp.getD 0 ≠ 0 ∧ msg.timestamp.getD 0 ≤ st.lastOrderBookTimestamp
        · simpa [handleOrderBookUpdate, hsb, h1, h2] using h
        · rcases hob : msg.order_book with _ | update
          · simpa [handleOrderBookUpdate, hsb, h1, h2, hob] using h
          · intro book hbook
            have h0 := h book0 (by rw [hsb]; rfl)
            simp only [handleOrderBookUpdate, hsb, hob, if_neg h1, if_neg h2,
              Option.mem_def, Option.some.injEq] at hbook
            rw [← hbook]
            constructor
            · rcases update.bids with _ | rawBids
              · exact h0.1
              · exact sortAndTrimLevels_length_le _ _
            · rcases update.asks with _ | rawAsks
              · exact h0.2
              · exact sortAndTrimLevels_length_le _ _

open Lighter in
/-- Witness for C10 at a concrete state and snapshot message. -/
theorem orderBook_depth_bound_witness :
    depthInv (handleOrderBookSnapshot ⟨none, 0, 0⟩ (some 1)
      ⟨some ⟨some 7, some [⟨100, 2⟩], some [⟨101, 3⟩]⟩, some 7, some 5⟩ 999) ∧
    depthInv (handleOrderBookUpdate ⟨none, 0, 0⟩
      ⟨some ⟨some 7, some [⟨100, 2⟩], some [⟨101, 3⟩]⟩, some 7, some 5⟩ 999) := by
  have h := orderBook_depth_bound ⟨none, 0, 0⟩ (some 1)
    ⟨some ⟨some 7, some [⟨100, 2⟩], some [⟨101, 3⟩]⟩, some 7, some 5⟩ 999
    (by intro book hbook; simp at hbook)
  exact ⟨h.2.1, h.2.2⟩

/-! ## Live-order map (claim C2) -/

namespace Lighter

theorem handleAccountOrdersStep_get_ne (m : List (String × LighterOrder))
    (o : LighterOrder) {q : String} (h : orderKey o ≠ q) :
    jsMapGet (handleAccountOrdersStep m o) q = jsMapGet m q := by
  unfold handleAccountOrdersStep
  by_cases hk : orderKey o = ""
  · simp [hk]
  · by_cases ht : terminalStatuses.contains (lowerString (o.status.getD "")) = true
    · simp only [if_neg hk, if_pos ht]
      rw [jsMapGet_delete, if_neg (fun hq : q = orderKey o => h hq.symm)]
    · simp only [if_neg hk, ht, if_neg, Bool.false_eq_true, if_false]
      rw [jsMapGet_set, if_neg (fun hq : q = orderKey o => h hq.symm)]

theorem foldl_handleAccountOrdersStep_get_ne (l : List LighterOrder)
    (m : List (String × LighterOrder)) {q : String}
    (h : ∀ o ∈ l, orderKey o ≠ q) :
    jsMapGet (l.foldl handleAccountOrdersStep m) q = jsMapGet m q := by
  induction l generalizing m with
  | nil => rfl
  | cons o t ih =>
    rw [List.foldl_cons, ih _ (fun o2 h2 => h o2 (List.mem_cons_of_mem _ h2)),
        handleAccountOrdersStep_get_ne m o (h o (List.mem_cons_self _ _))]

theorem handleAccountOrdersStep_terminal (m : List (String × LighterOrder))
    (o : LighterOrder)
    (hterm : terminalStatuses.contains (lowerString (o.status.getD "")) = true)
    (hkey : orderKey o ≠ "") :
    jsMapGet (handleAccountOrdersStep m o) (orderKey o) = none := by
  unfold handleAccountOrdersStep
  simp only [if_neg hkey, if_pos hterm]
  rw [jsMapGet_delete, if_pos rfl]

end Lighter

open Lighter in
/-- C2 (amended): the terminal-status set of `handleAccountOrders` is
`filled`, `canceled`/`cancelled` and `expired` (after lower-casing); an order
whose most recent update in the processed stream carries one of those statuses
is absent from the live-order map after processing, regardless of the arrival
order of earlier non-terminal updates for the same order; keys not touched by
the message keep their previous state.  (`rejected` is not in the terminal
set — see the counterexample — so the claim's original status list fails.) -/
theorem orders_terminal_absent (m0 : List (String × LighterOrder))
    (buckets : List (List LighterOrder)) (l1 l2 : List LighterOrder)
    (o : LighterOrder)
    (hsplit : buckets.flatten = l1 ++ o :: l2)
    (hterm : terminalStatuses.contains (lowerString (o.status.getD "")) = true)
    (hkey : orderKey o ≠ "")
    (hlast : ∀ o2 ∈ l2, orderKey o2 ≠ orderKey o) :
    jsMapGet (handleAccountOrders m0 buckets) (orderKey o) = none ∧
    ∀ q, (∀ o2 ∈ buckets.flatten, orderKey o2 ≠ q) →
      jsMapGet (handleAccountOrders m0 buckets) q = jsMapGet m0 q := by
  constructor
  · unfold handleAccountOrders
    rw [hsplit, List.foldl_append, List.foldl_cons,
        foldl_handleAccountOrdersStep_get_ne l2 _ hlast,
        handleAccountOrdersStep_terminal _ o hterm hkey]
  · intro q hq
    exact foldl_handleAccountOrdersStep_get_ne _ _ hq

open Lighter in
/-- C2 counterexample: an order whose most recent (only) update has status
`rejected` is retained in the live-order map, contradicting the claim that
rejected is a terminal status whose orders are absent after processing. -/
theorem orders_rejected_retained_counterexample :
    jsMapGet (handleAccountOrders []
      [[{ order_index := some 1, order_id := none, client_order_index := none,
          status := some "rejected" }]]) "1" =
      some { order_index := some 1, order_id := none, client_order_index := none,
             status := some "rejected" } := by decide

open Lighter in
/-- Witness for C2: a `Filled` update arriving after an `open` update removes
the order. -/
theorem orders_terminal_absent_witness :
    jsMapGet (handleAccountOrders
      [("1", { order_index := some 1, order_id := none, client_order_index := none,
               status := some "open" })]
      [[{ order_index := some 1, order_id := none, client_order_index := none,
          status := some "Filled" }]]) "1" = none := by
  have h := orders_terminal_absent
    [("1", { order_index := some 1, order_id := none, client_order_index := none,
             status := some "open" })]
    [[{ order_index := some 1, order_id := none, client_order_index := none,
        status := some "Filled" }]]
    [] []
    { order_index := some 1, order_id := none, client_order_index := none,
      status := some "Filled" }
    (by decide) (by decide) (by decide)
    (by intro o2 h2; simp at h2)
  exact h.1

/-! ## Order-book staleness guards (claim C3) -/

open Lighter in
/-- C3 (amended): both order-book handlers drop a message — leaving the whole
book state unchanged — when its nonzero offset is strictly below the nonzero
last-applied offset, and likewise when its offset equals the last-applied
offset while its timestamp is nonzero and not greater than the last-applied
timestamp.  (A zero/missing incoming offset, a zero last-applied offset, or a
zero/missing timestamp bypasses the corresponding guard, so the unqualified
original claim fails — see the counterexample.) -/
theorem orderBook_stale_guards (st : BookState) (marketId : Option Int)
    (msg : OrderBookMessage) (now : Int) :
    (st.lastOrderBookOffset ≠ 0 → incomingOffsetOf msg ≠ 0 →
     incomingOffsetOf msg < st.lastOrderBookOffset →
      handleOrderBookSnapshot st marketId msg now = st ∧
      handleOrderBookUpdate st msg now = st) ∧
    (incomingOffsetOf msg = st.lastOrderBookOffset → msg.timestamp.getD 0 ≠ 0 →
     msg.timestamp.getD 0 ≤ st.lastOrderBookTimestamp →
      handleOrderBookSnapshot st marketId msg now = st ∧
      handleOrderBookUpdate st msg now = st) := by
  constructor
  · intro h1 h2 h3
    constructor
    · rcases hob : msg.order_book with _ | raw
      · simp [handleOrderBookSnapshot, hob]
      · simp [handleOrderBookSnapshot, hob, h1, h2, h3]
    · rcases hsb : st.orderBook with _ | book
      · simp [handleOrderBookUpdate, hsb]
      · simp [handleOrderBookUpdate, hsb, h1, h2, h3]
  · intro h1 h2 h3
    constructor
    · rcases hob : msg.order_book with _ | raw
      · simp [handleOrderBookSnapshot, hob]
      · by_cases hg1 : st.lastOrderBookOffset ≠ 0 ∧ incomingOffsetOf msg ≠ 0 ∧
            incomingOffsetOf msg < st.lastOrderBookOffset
        · simp [handleOrderBookSnapshot, hob, hg1]
        · simp [handleOrderBookSnapshot, hob, hg1, h1, h2, h3]
    · rcases hsb : st.orderBook with _ | book
      · simp [handleOrderBookUpdate, hsb]
      · by_cases hg1 : st.lastOrderBookOffset ≠ 0 ∧ incomingOffsetOf msg ≠ 0 ∧
            incomingOffsetOf msg < st.lastOrderBookOffset
        · simp [handleOrderBookUpdate, hsb, hg1]
        · simp [handleOrderBookUpdate, hsb, hg1, h1, h2, h3]

open Lighter in
/-- C3 counterexample: with last-applied offset `5`, a delta whose offset is
`0` (strictly less than `5`) is *applied* — the asks change — because a zero
offset is falsy in JS and bypasses the stale-offset guard. -/
theorem orderBook_stale_zero_offset_counterexample :
    incomingOffsetOf ⟨some ⟨some 0, none, some [⟨10, 3⟩]⟩, some 0, some 200⟩ <
      (⟨some ⟨1, 5, [], [⟨10, 1⟩]⟩, 5, 100⟩ : BookState).lastOrderBookOffset ∧
    handleOrderBookUpdate (⟨some ⟨1, 5, [], [⟨10, 1⟩]⟩, 5, 100⟩ : BookState)
        ⟨some ⟨some 0, none, some [⟨10, 3⟩]⟩, some 0, some 200⟩ 999 ≠
      (⟨some ⟨1, 5, [], [⟨10, 1⟩]⟩, 5, 100⟩ : BookState) := by decide

open Lighter in
/-- Witness for C3: a nonzero stale offset (`3 < 5`) and an equal-offset
stale timestamp are both dropped without touching the state. -/
theorem orderBook_stale_guards_witness :
    (handleOrderBookSnapshot (⟨some ⟨1, 5, [], [⟨10, 1⟩]⟩, 5, 100⟩ : BookState)
        (some 1) ⟨some ⟨some 3, none, some [⟨10, 3⟩]⟩, some 3, some 200⟩ 999 =
      (⟨some ⟨1, 5, [], [⟨10, 1⟩]⟩, 5, 100⟩ : BookState)) ∧
    (handleOrderBookUpdate (⟨some ⟨1, 5, [], [⟨10, 1⟩]⟩, 5, 100⟩ : BookState)
        ⟨some ⟨some 5, none, some [⟨10, 3⟩]⟩, some 5, some 90⟩ 999 =
      (⟨some ⟨1, 5, [], [⟨10, 1⟩]⟩, 5, 100⟩ : BookState)) := by
  have ha := (orderBook_stale_guards (⟨some ⟨1, 5, [], [⟨10, 1⟩]⟩, 5, 100⟩ : BookState)
    (some 1) ⟨some ⟨some 3, none, some [⟨10, 3⟩]⟩, some 3, some 200⟩ 999).1
    (by decide) (by decide) (by decide)
  have hb := (orderBook_stale_guards (⟨some ⟨1, 5, [], [⟨10, 1⟩]⟩, 5, 100⟩ : BookState)
    (some 1) ⟨some ⟨some 5, none, some [⟨10, 3⟩]⟩, some 5, some 90⟩ 999).2
    (by decide) (by decide) (by decide)
  exact ⟨ha.1, hb.2⟩

/-! ## Position reconciliation (claim C7) -/

namespace Lighter

theorem positionEpsilon_pos : (0 : ℚ) < positionEpsilon := by decide

theorem positionShouldRemove_of_zero {p : LighterPosition}
    (h : p.sign.getD 0 = 0 ∨ p.position.getD 0 = 0) :
    positionShouldRemove p = true := by
  unfold positionShouldRemove
  rcases h with h | h
  · simp [h]
  · simp [h, positionEpsilon_pos]

theorem kept_of_positionShouldRemove_eq_false {p : LighterPosition}
    (h : positionShouldRemove p = false) :
    p.sign.getD 0 ≠ 0 ∧ p.position.getD 0 ≠ 0 := by
  unfold positionShouldRemove at h
  simp only [decide_eq_false_iff_not, not_or, not_lt] at h
  refine ⟨h.1, fun hzero => ?_⟩
  have := h.2
  rw [hzero] at this
  simp at this
  exact absurd this (not_le.mpr positionEpsilon_pos)

/-- The per-position step of the `handleAccountAll` seeding fold. -/
theorem accountAll_base_pairs (positions : List LighterPosition)
    (acc : List (Int × LighterPosition)) (PP : Int × LighterPosition → Prop)
    (hacc : ∀ e ∈ acc, PP e)
    (hins : ∀ p ∈ positions, ∀ mid, p.market_id = some mid → PP (mid, p)) :
    ∀ e ∈ positions.foldl
        (fun m p =>
          match p.market_id with
          | some mid => jsMapSet m mid p
          | none => m) acc, PP e := by
  induction positions generalizing acc with
  | nil => exact hacc
  | cons p t ih =>
    rw [List.foldl_cons]
    rcases hm : p.market_id with _ | mid
    · simp only [hm]
      exact ih acc hacc (fun r hr => hins r (List.mem_cons_of_mem _ hr))
    · simp only [hm]
      refine ih _ (fun e he => ?_) (fun r hr => hins r (List.mem_cons_of_mem _ hr))
      rcases mem_jsMapSet he with he | he
      · exact hacc e he
      · exact he ▸ hins p (List.mem_cons_self _ _) mid hm

/-- The per-position step of the `handleAccountAll` incoming-update fold. -/
theorem accountAll_update_pairs (incoming : List LighterPosition)
    (acc : List (Int × LighterPosition)) (PP : Int × LighterPosition → Prop)
    (hacc : ∀ e ∈ acc, PP e)
    (hins : ∀ p ∈ incoming, ∀ mid, p.market_id = some mid →
      positionShouldRemove p = false → PP (mid, p)) :
    ∀ e ∈ incoming.foldl
        (fun m p =>
          match p.market_id with
          | none => m
          | some mid =>
            if positionShouldRemove p then jsMapDelete m mid else jsMapSet m mid p)
        acc, PP e := by
  induction incoming generalizing acc with
  | nil => exact hacc
  | cons p t ih =>
    rw [List.foldl_cons]
    rcases hm : p.market_id with _ | mid
    · simp only [hm]
      exact ih acc hacc (fun r hr => hins r (List.mem_cons_of_mem _ hr))
    · simp only [hm]
      by_cases hrem : positionShouldRemove p = true
      · simp only [hrem, if_true]
        refine ih _ (fun e he => hacc e (mem_jsMapDelete he))
          (fun r hr => hins r (List.mem_cons_of_mem _ hr))
      · have hrem' : positionShouldRemove p = false := Bool.eq_false_iff.mpr hrem
        simp only [hrem', Bool.false_eq_true, if_false]
        refine ih _ (fun e he => ?_) (fun r hr => hins r (List.mem_cons_of_mem _ hr))
        rcases mem_jsMapSet he with he | he
        · exact hacc e he
        · exact he ▸ hins p (List.mem_cons_self _ _) mid hm hrem'

theorem accountAll_update_fold_get_ne (l : List LighterPosition)
    (acc : List (Int × LighterPosition)) {mid : Int}
    (h : ∀ p ∈ l, p.market_id ≠ some mid) :
    jsMapGet (l.foldl
        (fun m p =>
          match p.market_id with
          | none => m
          | some mid2 =>
            if positionShouldRemove p then jsMapDelete m mid2 else jsMapSet m mid2 p)
        acc) mid = jsMapGet acc mid := by
  induction l generalizing acc with
  | nil => rfl
  | cons p t ih =>
    rw [List.foldl_cons]
    rcases hm : p.market_id with _ | mid2
    · simp only [hm]
      exact ih acc (fun r hr => h r (List.mem_cons_of_mem _ hr))
    · have hne : mid ≠ mid2 := by
        intro hc
        exact h p (List.mem_cons_self _ _) (by rw [hm, hc])
      simp only [hm]
      by_cases hrem : positionShouldRemove p = true
      · simp only [hrem, if_true]
        rw [ih _ (fun r hr => h r (List.mem_cons_of_mem _ hr)),
            jsMapGet_delete, if_neg hne]
      · simp only [Bool.eq_false_iff.mpr hrem, Bool.false_eq_true, if_false]
        rw [ih _ (fun r hr => h r (List.mem_cons_of_mem _ hr)),
            jsMapGet_set, if_neg hne]

end Lighter

namespace Lighter

theorem handleAccountAll_eq (positions incoming : List LighterPosition) :
    handleAccountAll positions (some incoming) =
      (incoming.foldl
        (fun m p =>
          match p.market_id with
          | none => m
          | some mid =>
            if positionShouldRemove p then jsMapDelete m mid else jsMapSet m mid p)
        (positions.foldl
          (fun m p =>
            match p.market_id with
            | some mid => jsMapSet m mid p
            | none => m) [])).map (fun e => e.2) := rfl

theorem handleAccountMarket_eq_none (positions : List LighterPosition)
    {p : LighterPosition} (h : p.market_id = none) :
    handleAccountMarket positions (some p) = positions := by
  simp [handleAccountMarket, h]

theorem handleAccountMarket_eq_remove (positions : List LighterPosition)
    {p : LighterPosition} {mid : Int} (hmid : p.market_id = some mid)
    (hrem : positionShouldRemove p = true) :
    handleAccountMarket positions (some p) =
      positions.filter (fun q => q.market_id ≠ some mid) := by
  simp [handleAccountMarket, hmid, hrem]

theorem handleAccountMarket_eq_replace (positions : List LighterPosition)
    {p : LighterPosition} {mid : Int} (hmid : p.market_id = some mid)
    (hrem : positionShouldRemove p = false)
    (hany : positions.any (fun q => q.market_id = some mid) = true) :
    handleAccountMarket positions (some p) =
      positions.map (fun q => if q.market_id = some mid then p else q) := by
  simp [handleAccountMarket, hmid, hrem, hany]

theorem handleAccountMarket_eq_append (positions : List LighterPosition)
    {p : LighterPosition} {mid : Int} (hmid : p.market_id = some mid)
    (hrem : positionShouldRemove p = false)
    (hany : positions.any (fun q => q.market_id = some mid) = false) :
    handleAccountMarket positions (some p) = positions ++ [p] := by
  simp [handleAccountMarket, hmid, hrem, hany]

end Lighter

open Lighter in
/-- C7: a position update with zero signed size (zero `sign` or zero `position`)
removes that market's position from the set in both account handlers; a
nonzero update (one the removal test keeps) re-adds it; and if the previous
position set had no zero-signed-size entries then neither handler's result
does — the handlers never store a zero-sized position. -/
theorem positions_zero_size_absent (positions l1 l2 : List LighterPosition)
    (p : LighterPosition) (mid : Int) :
    (p.market_id = some mid → (p.sign.getD 0 = 0 ∨ p.position.getD 0 = 0) →
      (∀ q ∈ handleAccountMarket positions (some p), q.market_id ≠ some mid) ∧
      ((∀ r ∈ l2, r.market_id ≠ some mid) →
        ∀ q ∈ handleAccountAll positions (some (l1 ++ p :: l2)),
          q.market_id ≠ some mid)) ∧
    (p.market_id = some mid → positionShouldRemove p = false →
      p ∈ handleAccountMarket positions (some p) ∧
      ((∀ r ∈ l2, r.market_id ≠ some mid) →
        p ∈ handleAccountAll positions (some (l1 ++ p :: l2)))) ∧
    ((∀ q ∈ positions, q.sign.getD 0 ≠ 0 ∧ q.position.getD 0 ≠ 0) →
      (∀ q ∈ handleAccountMarket positions (some p),
        q.sign.getD 0 ≠ 0 ∧ q.position.getD 0 ≠ 0) ∧
      (∀ q ∈ handleAccountAll positions (some (l1 ++ p :: l2)),
        q.sign.getD 0 ≠ 0 ∧ q.position.getD 0 ≠ 0)) := by
  refine ⟨fun hmid hzero => ⟨?_, fun hl2 => ?_⟩,
          fun hmid hkeep => ⟨?_, fun hl2 => ?_⟩,
          fun hP => ⟨?_, ?_⟩⟩
  · intro q hq
    rw [handleAccountMarket_eq_remove positions hmid
      (positionShouldRemove_of_zero hzero)] at hq
    simpa using (List.mem_filter.mp hq).2
  · intro q hq
    rw [handleAccountAll_eq] at hq
    obtain ⟨e, he, hee⟩ := List.mem_map.mp hq
    have hkc : ∀ e2 ∈ (l1 ++ p :: l2).foldl
        (fun m p =>
          match p.market_id with
          | none => m
          | some mid =>
            if positionShouldRemove p then jsMapDelete m mid else jsMapSet m mid p)
        (positions.foldl
          (fun m p =>
            match p.market_id with
            | some mid => jsMapSet m mid p
            | none => m) []),
        e2.2.market_id = some e2.1 :=
      accountAll_update_pairs _ _ _
        (accountAll_base_pairs _ _ _ (by intro e2 he2; simp at he2)
          (fun r _ mid2 hm => hm))
        (fun r _ mid2 hm _ => hm)
    intro hqm
    have he1 : e.1 = mid := by
      have := hkc e he
      rw [hee, hqm] at this
      exact (Option.some.injEq _ _).mp this.symm
    have hget : jsMapGet ((l1 ++ p :: l2).foldl
        (fun m p =>
          match p.market_id with
          | none => m
          | some mid =>
            if positionShouldRemove p then jsMapDelete m mid else jsMapSet m mid p)
        (positions.foldl
          (fun m p =>
            match p.market_id with
            | some mid => jsMapSet m mid p
            | none => m) [])) mid = none := by
      rw [List.foldl_append, List.foldl_cons,
          accountAll_update_fold_get_ne l2 _ hl2]
      simp only [hmid, positionShouldRemove_of_zero hzero, if_true]
      rw [jsMapGet_delete, if_pos rfl]
    have hfind := Option.map_eq_none'.mp hget
    have := List.find?_eq_none.mp hfind e he
    rw [he1] at this
    simp at this
  · by_cases hany : positions.any (fun q => q.market_id = some mid) = true
    · rw [handleAccountMarket_eq_replace positions hmid hkeep hany]
      obtain ⟨q, hqmem, hq2⟩ := List.any_eq_true.mp hany
      exact List.mem_map.mpr ⟨q, hqmem, by simp [of_decide_eq_true hq2]⟩
    · rw [handleAccountMarket_eq_append positions hmid hkeep
        (Bool.eq_false_iff.mpr hany)]
      exact List.mem_append.mpr (Or.inr (by simp))
  · rw [handleAccountAll_eq]
    have hget : jsMapGet ((l1 ++ p :: l2).foldl
        (fun m p =>
          match p.market_id with
          | none => m
          | some mid =>
            if positionShouldRemove p then jsMapDelete m mid else jsMapSet m mid p)
        (positions.foldl
          (fun m p =>
            match p.market_id with
            | some mid => jsMapSet m mid p
            | none => m) [])) mid = some p := by
      rw [List.foldl_append, List.foldl_cons,
          accountAll_update_fold_get_ne l2 _ hl2]
      simp only [hmid, hkeep, Bool.false_eq_true, if_false]
      rw [jsMapGet_set, if_pos rfl]
    exact List.mem_map.mpr ⟨(mid, p), mem_of_jsMapGet_eq_some hget, rfl⟩
  · intro q hq
    rcases hm : p.market_id with _ | mid2
    · rw [handleAccountMarket_eq_none positions hm] at hq
      exact hP q hq
    · by_cases hrem : positionShouldRemove p = true
      · rw [handleAccountMarket_eq_remove positions hm hrem] at hq
        exact hP q (List.mem_of_mem_filter hq)
      · have hkeep := Bool.eq_false_iff.mpr hrem
        have hPp := kept_of_positionShouldRemove_eq_false hkeep
        by_cases hany : positions.any (fun q => q.market_id = some mid2) = true
        · rw [handleAccountMarket_eq_replace positions hm hkeep hany] at hq
          obtain ⟨r, hr, hrq⟩ := List.mem_map.mp hq
          by_cases hrm : r.market_id = some mid2
          · rw [if_pos hrm] at hrq
            exact hrq ▸ hPp
          · rw [if_neg hrm] at hrq
            exact hrq ▸ hP r hr
        · rw [handleAccountMarket_eq_append positions hm hkeep
            (Bool.eq_false_iff.mpr hany)] at hq
          rcases List.mem_append.mp hq with hq | hq
          · exact hP q hq
          · have : q = p := by simpa using hq
            exact this ▸ hPp
  · rw [handleAccountAll_eq]
    intro q hq
    obtain ⟨e, he, hee⟩ := List.mem_map.mp hq
    have := accountAll_update_pairs (l1 ++ p :: l2) _
      (fun e => e.2.sign.getD 0 ≠ 0 ∧ e.2.position.getD 0 ≠ 0)
      (accountAll_base_pairs positions [] _ (by intro e2 he2; simp at he2)
        (fun r hr _ _ => hP r hr))
      (fun r _ _ _ hrem => kept_of_positionShouldRemove_eq_false hrem) e he
    exact hee ▸ this

open Lighter in
/-- Witness for C7: a zero-sign update removes the market-3 position, a fresh
nonzero update re-adds it, and no zero-sized entry survives either handler. -/
theorem positions_zero_size_absent_witness :
    (∀ q ∈ handleAccountMarket
        [{ market_id := some 3, sign := some 1, position := some 2 }]
        (some { market_id := some 3, sign := some 0, position := some 0 }),
      q.market_id ≠ some 3) ∧
    ({ market_id := some 3, sign := some 1, position := some 5 } : LighterPosition) ∈
      handleAccountMarket []
        (some { market_id := some 3, sign := some 1, position := some 5 }) ∧
    (∀ q ∈ handleAccountAll
        [{ market_id := some 3, sign := some 1, position := some 2 }]
        (some [{ market_id := some 3, sign := some 1, position := some 0 }]),
      q.sign.getD 0 ≠ 0 ∧ q.position.getD 0 ≠ 0) := by
  refine ⟨?_, ?_, ?_⟩
  · exact ((positions_zero_size_absent
      [{ market_id := some 3, sign := some 1, position := some 2 }] [] []
      { market_id := some 3, sign := some 0, position := some 0 } 3).1
      (by decide) (by decide)).1
  · exact ((positions_zero_size_absent []
      [] [] { market_id := some 3, sign := some 1, position := some 5 } 3).2.1
      (by decide) (by decide)).1
  · exact ((positions_zero_size_absent
      [{ market_id := some 3, sign := some 1, position := some 2 }] [] []
      { market_id := some 3, sign := some 1, position := some 0 } 3).2.2
      (by decide)).2

/-! ## Minimum-quantity scaling (claim C4) -/

namespace Lighter

theorem normalizeDecimalInput_sign {l : List Char} {norm : NormalizedDecimal}
    (h : normalizeDecimalInput l = some norm) : norm.sign = 1 ∨ norm.sign = -1 := by
  simp only [normalizeDecimalInput] at h
  repeat' split at h
  all_goals first
    | (injection h with h; rw [← h]; simp)
    | simp at h

theorem scaledFromNorm_shape (norm : NormalizedDecimal) (d : Nat) :
    ∃ k : ℕ, scaledFromNorm norm d = norm.sign * (k : Int) := by
  unfold scaledFromNorm
  split
  · exact ⟨_, rfl⟩
  · exact ⟨_, rfl⟩

end Lighter

set_option maxRecDepth 150000 in
open Lighter in
/-- C4 (amended): for every valid decimal string whose exact value is nonzero
and whose `Number(...)` reading is finite and nonzero (neither underflowing to
`0` nor overflowing to `Infinity`), `scaleQuantityWithMinimum` returns a
nonzero scaled integer whose sign is the sign of the input, even when
`decimalToScaled` truncates to `0`; the claim's scenario-A instance
(`"0.00001"` at 4 decimals) is included concretely.  The unqualified original
claim fails: a nonzero input below half the least subnormal double underflows,
`Number(value) === 0` holds and the source returns `0n` — see the
counterexample. -/
theorem scaleQuantityWithMinimum_sign :
    (∀ (s : String) (d : Nat) (r σ : Int) (norm : NormalizedDecimal),
      normalizeDecimalInput s.data = some norm → ¬ numericZeroOrNonfinite norm →
      scaleQuantityWithMinimum s d = some r → decimalSign s = some σ → σ ≠ 0 →
      r ≠ 0 ∧ Int.sign r = σ) ∧
    decimalToScaled "0.00001" 4 = some 0 ∧
    scaleQuantityWithMinimum "0.00001" 4 = some 1 ∧
    scaledToDecimalString 1 4 = "0.0001" := by
  have hconc : decimalToScaled "0.00001" 4 = some 0 ∧
      scaleQuantityWithMinimum "0.00001" 4 = some 1 ∧
      scaledToDecimalString 1 4 = "0.0001" := by decide
  refine ⟨?_, hconc.1, hconc.2.1, hconc.2.2⟩
  intro s d r σ norm hn hfin hr hσ hσ0
  unfold scaleQuantityWithMinimum at hr
  unfold decimalSign at hσ
  rw [hn] at hr hσ
  simp only [Option.map_some', Option.some.injEq] at hr hσ
  by_cases hz : norm.digits = ['0']
  · rw [if_pos hz] at hσ
    exact absurd hσ.symm hσ0
  · rw [if_neg hz] at hσ
    have hsign := normalizeDecimalInput_sign hn
    by_cases hsc : scaledFromNorm norm d ≠ 0
    · rw [if_pos hsc] at hr
      obtain ⟨k, hk⟩ := scaledFromNorm_shape norm d
      rw [hk] at hr hsc
      have hk0 : (0 : Int) < (k : Int) := by
        rcases Nat.eq_zero_or_pos k with h0 | h0
        · exact absurd (by rw [h0]; simp) hsc
        · exact_mod_cast h0
      refine ⟨by rw [← hr]; exact hsc, ?_⟩
      rw [← hr, ← hσ]
      rcases hsign with h1 | h1
      · rw [h1, one_mul]
        exact Int.sign_eq_one_iff_pos.mpr hk0
      · rw [h1]
        refine Int.sign_eq_neg_one_iff_neg.mpr ?_
        omega
    · rw [if_neg hsc, if_neg hfin] at hr
      rcases hsign with h1 | h1
      · have hne : ¬ norm.sign = -1 := by rw [h1]; decide
        rw [if_neg hne] at hr
        exact ⟨by rw [← hr]; decide, by rw [← hr, ← hσ, h1]; decide⟩
      · rw [if_pos h1] at hr
        exact ⟨by rw [← hr]; decide, by rw [← hr, ← hσ, h1]; decide⟩

set_option maxRecDepth 150000 in
open Lighter in
/-- C4 counterexample: the value `2e-324`, written as `"0."` followed by 323
zeros and a `"2"`, is a valid decimal string with nonzero sign, but it lies
below half the least subnormal double (`2^(-1075) ≈ 2.47e-324`), so
`Number(value) === 0` holds and `scaleQuantityWithMinimum` returns `0` rather
than a nonzero unit of the input's sign. -/
theorem scaleQuantityWithMinimum_underflow_counterexample :
    decimalSign (String.mk ('0' :: '.' :: (List.replicate 323 '0' ++ ['2']))) = some 1 ∧
    scaleQuantityWithMinimum
      (String.mk ('0' :: '.' :: (List.replicate 323 '0' ++ ['2']))) 4 = some 0 := by
  refine ⟨by decide, by decide⟩

set_option maxRecDepth 150000 in
open Lighter in
/-- Witness for C4 at `"-0.00001"` with 4 decimals: the input normalizes to
sign `-1` with digit value `1` at fraction length 5, its double reading is
finite and nonzero, and the result `-1` is nonzero and negative like the
input. -/
theorem scaleQuantityWithMinimum_sign_witness :
    scaleQuantityWithMinimum "-0.00001" 4 = some (-1) ∧
    (-1 : Int) ≠ 0 ∧ Int.sign (-1) = -1 := by
  refine ⟨by decide, ?_, ?_⟩
  · exact (scaleQuantityWithMinimum_sign.1 "-0.00001" 4 (-1) (-1)
      ⟨-1, ['0', '0', '0', '0', '0', '1'], 5⟩
      (by decide) (by decide) (by decide) (by decide) (by decide)).1
  · exact (scaleQuantityWithMinimum_sign.1 "-0.00001" 4 (-1) (-1)
      ⟨-1, ['0', '0', '0', '0', '0', '1'], 5⟩
      (by decide) (by decide) (by decide) (by decide) (by decide)).2

/-! ## Sorting and merging machinery (claims C5, C6) -/

namespace Lighter

instance levelLETotal (side : Side) : IsTotal Level (levelLE side) := by
  refine ⟨fun a b => ?_⟩
  unfold levelLE
  split
  · exact le_total _ _
  · exact le_total _ _

instance levelLETrans (side : Side) : IsTrans Level (levelLE side) := by
  refine ⟨fun a b c h1 h2 => ?_⟩
  unfold levelLE at *
  by_cases hs : side = Side.bid
  · rw [if_pos hs] at *
    exact le_trans h2 h1
  · rw [if_neg hs] at *
    exact le_trans h1 h2

theorem levelLT_asymm (side : Side) :
    ∀ a b, levelLT side a b → levelLT side b a → False := by
  intro a b h1 h2
  unfold levelLT at *
  by_cases hs : side = Side.bid
  · rw [if_pos hs] at *
    exact absurd h1 (not_lt.mpr (le_of_lt h2))
  · rw [if_neg hs] at *
    exact absurd h1 (not_lt.mpr (le_of_lt h2))

theorem insertionSort_pairwise_levelLT (l : List Level) (side : Side)
    (hnd : nodupPrices l) :
    (List.insertionSort (levelLE side) l).Pairwise (levelLT side) := by
  have hsorted : List.Sorted (levelLE side) (List.insertionSort (levelLE side) l) :=
    List.sorted_insertionSort _ _
  have hperm : (List.insertionSort (levelLE side) l).Perm l :=
    List.perm_insertionSort _ _
  have hne : (List.insertionSort (levelLE side) l).Pairwise
      (fun a b => a.price ≠ b.price) :=
    (List.Perm.pairwise_iff (fun h => h.symm) hperm).mpr hnd
  refine (hsorted.and hne).imp ?_
  intro a b hab
  obtain ⟨h1, h2⟩ := hab
  unfold levelLE at h1
  unfold levelLT
  by_cases hs : side = Side.bid
  · rw [if_pos hs] at h1 ⊢
    exact lt_of_le_of_ne h1 h2.symm
  · rw [if_neg hs] at h1 ⊢
    exact lt_of_le_of_ne h1 h2

theorem sortAndTrimLevels_pairwise (l : List Level) (side : Side)
    (hnd : nodupPrices l) :
    (sortAndTrimLevels l side).Pairwise (levelLT side) :=
  List.Pairwise.sublist (List.take_sublist _ _)
    (insertionSort_pairwise_levelLT l side hnd)

theorem sortAndTrimLevels_subset {l : List Level} {side : Side} {x : Level}
    (h : x ∈ sortAndTrimLevels l side) : x ∈ l :=
  (List.perm_insertionSort (levelLE side) l).subset (List.mem_of_mem_take h)

theorem sortAndTrimLevels_nodupPrices {l : List Level} {side : Side}
    (hnd : nodupPrices l) : nodupPrices (sortAndTrimLevels l side) :=
  List.Pairwise.sublist (List.take_sublist _ _)
    ((List.Perm.pairwise_iff (fun h => h.symm)
      (List.perm_insertionSort (levelLE side) l)).mpr hnd)

theorem foldl_levelSet_keysND (e : List Level) (acc : List (ℚ × ℚ))
    (h : jsMapKeysND acc) :
    jsMapKeysND (e.foldl (fun m lv => jsMapSet m lv.price lv.size) acc) := by
  induction e generalizing acc with
  | nil => exact h
  | cons lv t ih => exact ih _ (jsMapKeysND_set _ _ h)

theorem foldl_levelUpd_keysND (u : List Level) (acc : List (ℚ × ℚ))
    (h : jsMapKeysND acc) :
    jsMapKeysND (u.foldl
      (fun m lv => if lv.size ≤ 0 then jsMapDelete m lv.price
        else jsMapSet m lv.price lv.size) acc) := by
  induction u generalizing acc with
  | nil => exact h
  | cons lv t ih =>
    rw [List.foldl_cons]
    by_cases hsz : lv.size ≤ 0
    · simp only [if_pos hsz]
      exact ih _ (jsMapKeysND_delete _ h)
    · simp only [if_neg hsz]
      exact ih _ (jsMapKeysND_set _ _ h)

theorem mergeLevels_nodupPrices (e u : List Level) :
    nodupPrices (mergeLevels e u) := by
  unfold mergeLevels nodupPrices
  rw [List.pairwise_map]
  exact foldl_levelUpd_keysND u _ (foldl_levelSet_keysND e [] List.Pairwise.nil)

theorem foldl_levelSet_values (e : List Level) (acc : List (ℚ × ℚ))
    (R : ℚ × ℚ → Prop) (hacc : ∀ x ∈ acc, R x)
    (hins : ∀ lv ∈ e, R (lv.price, lv.size)) :
    ∀ x ∈ e.foldl (fun m lv => jsMapSet m lv.price lv.size) acc, R x := by
  induction e generalizing acc with
  | nil => exact hacc
  | cons lv t ih =>
    rw [List.foldl_cons]
    refine ih _ (fun x hx => ?_) (fun r hr => hins r (List.mem_cons_of_mem _ hr))
    rcases mem_jsMapSet hx with hx | hx
    · exact hacc x hx
    · exact hx ▸ hins lv (List.mem_cons_self _ _)

theorem foldl_levelUpd_values (u : List Level) (acc : List (ℚ × ℚ))
    (R : ℚ × ℚ → Prop) (hacc : ∀ x ∈ acc, R x)
    (hins : ∀ lv ∈ u, ¬ lv.size ≤ 0 → R (lv.price, lv.size)) :
    ∀ x ∈ u.foldl
      (fun m lv => if lv.size ≤ 0 then jsMapDelete m lv.price
        else jsMapSet m lv.price lv.size) acc, R x := by
  induction u generalizing acc with
  | nil => exact hacc
  | cons lv t ih =>
    rw [List.foldl_cons]
    by_cases hsz : lv.size ≤ 0
    · simp only [if_pos hsz]
      exact ih _ (fun x hx => hacc x (mem_jsMapDelete hx))
        (fun r hr => hins r (List.mem_cons_of_mem _ hr))
    · simp only [if_neg hsz]
      refine ih _ (fun x hx => ?_) (fun r hr => hins r (List.mem_cons_of_mem _ hr))
      rcases mem_jsMapSet hx with hx | hx
      · exact hacc x hx
      · exact hx ▸ hins lv (List.mem_cons_self _ _) hsz

theorem mergeLevels_positive (e u : List Level) (he : levelsPositive e) :
    levelsPositive (mergeLevels e u) := by
  unfold mergeLevels
  intro lv hlv
  obtain ⟨x, hx, hxe⟩ := List.mem_map.mp hlv
  have := foldl_levelUpd_values u _ (fun x => 0 < x.2)
    (foldl_levelSet_values e [] _ (by intro x hx; simp at hx)
      (fun lv2 h2 => he lv2 h2))
    (fun lv2 _ hsz => lt_of_not_le hsz) x hx
  rw [← hxe]
  exact this

theorem foldl_levelUpd_get (u : List Level) (acc : List (ℚ × ℚ)) (p : ℚ) :
    jsMapGet (u.foldl
      (fun m lv => if lv.size ≤ 0 then jsMapDelete m lv.price
        else jsMapSet m lv.price lv.size) acc) p =
      mergeResultAt u p (jsMapGet acc p) := by
  induction u generalizing acc with
  | nil => rfl
  | cons lv t ih =>
    rw [List.foldl_cons]
    have hstep : jsMapGet
        (if lv.size ≤ 0 then jsMapDelete acc lv.price
          else jsMapSet acc lv.price lv.size) p =
        (if p = lv.price then (if lv.size ≤ 0 then none else some lv.size)
          else jsMapGet acc p) := by
      by_cases hsz : lv.size ≤ 0
      · rw [if_pos hsz, jsMapGet_delete]
        by_cases hp : p = lv.price
        · rw [if_pos hp, if_pos hp, if_pos hsz]
        · rw [if_neg hp, if_neg hp]
      · rw [if_neg hsz, jsMapGet_set]
        by_cases hp : p = lv.price
        · rw [if_pos hp, if_pos hp, if_neg hsz]
        · rw [if_neg hp, if_neg hp]
    rw [ih, hstep]
    rfl

theorem mergeResultAt_cons (lv : Level) (t : List Level) (p : ℚ) (v : Option ℚ) :
    mergeResultAt (lv :: t) p v =
      mergeResultAt t p
        (if p = lv.price then (if lv.size ≤ 0 then none else some lv.size) else v) :=
  rfl

theorem mergeResultAt_id_or_const (u : List Level) (p : ℚ) :
    (∀ v, mergeResultAt u p v = v) ∨
    (∀ v w, mergeResultAt u p v = mergeResultAt u p w) := by
  induction u with
  | nil => exact Or.inl (fun v => rfl)
  | cons lv t ih =>
    by_cases hp : p = lv.price
    · right
      intro v w
      rw [mergeResultAt_cons, mergeResultAt_cons, if_pos hp, if_pos hp]
    · rcases ih with hid | hconst
      · left
        intro v
        rw [mergeResultAt_cons, if_neg hp]
        exact hid v
      · right
        intro v w
        rw [mergeResultAt_cons, mergeResultAt_cons, if_neg hp, if_neg hp]
        exact hconst v w

theorem levelLookup_map_pairs (m : List (ℚ × ℚ)) (p : ℚ) :
    levelLookup (m.map (fun e => { price := e.1, size := e.2 : Level })) p =
      jsMapGet m p := by
  induction m with
  | nil => rfl
  | cons e t ih =>
    rw [List.map_cons, jsMapGet_cons]
    by_cases he : e.1 = p
    · simp [levelLookup, List.find?_cons, he]
    · rw [if_neg he]
      rw [← ih]
      simp [levelLookup, List.find?_cons, he]

theorem levelLookup_mergeLevels (e u : List Level) (p : ℚ) :
    levelLookup (mergeLevels e u) p =
      mergeResultAt u p
        (jsMapGet (e.foldl (fun m lv => jsMapSet m lv.price lv.size) []) p) := by
  unfold mergeLevels
  rw [levelLookup_map_pairs, foldl_levelUpd_get]

theorem base_of_nodupPrices (e : List Level) (h : nodupPrices e) :
    e.foldl (fun m lv => jsMapSet m lv.price lv.size) [] =
      e.map (fun lv => (lv.price, lv.size)) := by
  have hmap : (e.map (fun lv => (lv.price, lv.size))).foldl
      (fun m x => jsMapSet m x.1 x.2) [] =
      [] ++ e.map (fun lv => (lv.price, lv.size)) := by
    refine foldl_jsMapSet_of_keysND _ _ ?_
    rw [List.nil_append]
    unfold jsMapKeysND
    rw [List.pairwise_map]
    exact h
  rw [List.foldl_map] at hmap
  rw [hmap, List.nil_append]

theorem jsMapGet_pairs_eq_levelLookup (e : List Level) (p : ℚ) :
    jsMapGet (e.map (fun lv => (lv.price, lv.size))) p = levelLookup e p := by
  have := levelLookup_map_pairs (e.map (fun lv => (lv.price, lv.size))) p
  rw [List.map_map] at this
  rw [← this]
  congr 1
  have hfun : ∀ lv ∈ e,
      ((fun e => ({ price := e.1, size := e.2 } : Level)) ∘
        fun lv => (lv.price, lv.size)) lv = id lv := fun lv _ => rfl
  rw [List.map_congr_left hfun, List.map_id]

theorem levelLookup_eq_some_of_mem {l : List Level} {lv : Level}
    (hnd : nodupPrices l) (h : lv ∈ l) :
    levelLookup l lv.price = some lv.size := by
  induction l with
  | nil => simp at h
  | cons x t ih =>
    rcases List.mem_cons.mp h with h | h
    · rw [← h]
      simp [levelLookup, List.find?_cons]
    · have hx : x.price ≠ lv.price := (List.pairwise_cons.mp hnd).1 lv h
      have : levelLookup t lv.price = some lv.size :=
        ih (List.pairwise_cons.mp hnd).2 h
      simpa [levelLookup, List.find?_cons, hx] using this

theorem mem_of_levelLookup_eq_some {l : List Level} {p s : ℚ}
    (h : levelLookup l p = some s) : ({ price := p, size := s } : Level) ∈ l := by
  unfold levelLookup at h
  obtain ⟨x, hfind, hs⟩ := Option.map_eq_some'.mp h
  have hx : x ∈ l := List.mem_of_find?_eq_some hfind
  have hp : x.price = p := by simpa using List.find?_some hfind
  have : x = { price := p, size := s } := by
    cases x
    simp_all
  exact this ▸ hx

theorem take_eq_of_pairwise_subset (r : Level → Level → Prop)
    (hasym : ∀ a b, r a b → r b a → False) :
    ∀ (sa sb : List Level) (k : Nat), sa.Pairwise r → sb.Pairwise r →
      (∀ x ∈ sb, x ∈ sa) → (∀ x ∈ sa.take k, x ∈ sb) →
      sb.take k = sa.take k := by
  intro sa
  induction sa with
  | nil =>
    intro sb k _ _ hsub _
    have hnil : sb = [] :=
      List.eq_nil_iff_forall_not_mem.mpr (fun x hx => by simpa using hsub x hx)
    rw [hnil]
  | cons a sa ih =>
    intro sb k hpa hpb hsub htake
    cases k with
    | zero => simp
    | succ k =>
      have ha_sb : a ∈ sb := htake a (by simp)
      cases sb with
      | nil => simp at ha_sb
      | cons b sb =>
        rcases List.mem_cons.mp ha_sb with hab | ha_sb'
        · subst hab
          rw [List.take_succ_cons, List.take_succ_cons]
          congr 1
          refine ih sb k (List.pairwise_cons.mp hpa).2 (List.pairwise_cons.mp hpb).2
            ?_ ?_
          · intro x hx
            have hx' : x ∈ a :: sa := hsub x (List.mem_cons_of_mem _ hx)
            rcases List.mem_cons.mp hx' with hxa | h
            · subst hxa
              have hr : r x x := (List.pairwise_cons.mp hpb).1 x hx
              exact absurd hr (fun hr => hasym _ _ hr hr)
            · exact h
          · intro x hx
            have hx' : x ∈ a :: sb := htake x (by
              rw [List.take_succ_cons]
              exact List.mem_cons_of_mem _ hx)
            rcases List.mem_cons.mp hx' with hxa | h
            · subst hxa
              have hxsa : x ∈ sa := List.mem_of_mem_take hx
              have hr : r x x := (List.pairwise_cons.mp hpa).1 x hxsa
              exact absurd hr (fun hr => hasym _ _ hr hr)
            · exact h
        · exfalso
          have hrba : r b a := (List.pairwise_cons.mp hpb).1 a ha_sb'
          have hb_sa : b ∈ a :: sa := hsub b (List.mem_cons_self _ _)
          rcases List.mem_cons.mp hb_sa with hba | hb_sa'
          · subst hba
            exact hasym b b hrba hrba
          · exact hasym a b ((List.pairwise_cons.mp hpa).1 b hb_sa') hrba

end Lighter

namespace Lighter

theorem mergeLevels_subset_of_trim (e u : List Level) (side : Side) :
    ∀ x ∈ mergeLevels (sortAndTrimLevels (mergeLevels e u) side) u,
      x ∈ mergeLevels e u := by
  intro x hx
  have hndA : nodupPrices (mergeLevels e u) := mergeLevels_nodupPrices e u
  have hndT : nodupPrices (sortAndTrimLevels (mergeLevels e u) side) :=
    sortAndTrimLevels_nodupPrices hndA
  have hndB : nodupPrices (mergeLevels (sortAndTrimLevels (mergeLevels e u) side) u) :=
    mergeLevels_nodupPrices _ u
  have hlook := levelLookup_eq_some_of_mem hndB hx
  rw [levelLookup_mergeLevels, base_of_nodupPrices _ hndT,
      jsMapGet_pairs_eq_levelLookup] at hlook
  rcases mergeResultAt_id_or_const u x.price with hid | hconst
  · rw [hid] at hlook
    exact sortAndTrimLevels_subset (mem_of_levelLookup_eq_some hlook)
  · have hA : levelLookup (mergeLevels e u) x.price = some x.size := by
      rw [levelLookup_mergeLevels]
      rw [hconst _ (levelLookup (sortAndTrimLevels (mergeLevels e u) side) x.price)]
      exact hlook
    exact mem_of_levelLookup_eq_some hA

theorem trim_subset_of_mergeLevels (e u : List Level) (side : Side) :
    ∀ x ∈ sortAndTrimLevels (mergeLevels e u) side,
      x ∈ mergeLevels (sortAndTrimLevels (mergeLevels e u) side) u := by
  intro x hx
  have hndA : nodupPrices (mergeLevels e u) := mergeLevels_nodupPrices e u
  have hndT : nodupPrices (sortAndTrimLevels (mergeLevels e u) side) :=
    sortAndTrimLevels_nodupPrices hndA
  have hlookT := levelLookup_eq_some_of_mem hndT hx
  have hlookA := levelLookup_eq_some_of_mem hndA (sortAndTrimLevels_subset hx)
  have hlookB : levelLookup
      (mergeLevels (sortAndTrimLevels (mergeLevels e u) side) u) x.price =
      some x.size := by
    rw [levelLookup_mergeLevels, base_of_nodupPrices _ hndT,
        jsMapGet_pairs_eq_levelLookup]
    rcases mergeResultAt_id_or_const u x.price with hid | hconst
    · rw [hid]
      exact hlookT
    · rw [hconst _ (jsMapGet ((e).foldl (fun m lv => jsMapSet m lv.price lv.size) []) x.price),
          ← levelLookup_mergeLevels]
      exact hlookA
  exact mem_of_levelLookup_eq_some hlookB

/-- Key idempotence fact: re-merging the same updates into a sorted-and-trimmed
merge result and sorting/trimming again reproduces the same side. -/
theorem sortAndTrim_merge_idempotent (e u : List Level) (side : Side) :
    sortAndTrimLevels (mergeLevels (sortAndTrimLevels (mergeLevels e u) side) u) side =
      sortAndTrimLevels (mergeLevels e u) side := by
  have hndA : nodupPrices (mergeLevels e u) := mergeLevels_nodupPrices e u
  have hndB : nodupPrices (mergeLevels (sortAndTrimLevels (mergeLevels e u) side) u) :=
    mergeLevels_nodupPrices _ u
  show (List.insertionSort (levelLE side)
      (mergeLevels (sortAndTrimLevels (mergeLevels e u) side) u)).take (max 1 200) =
    sortAndTrimLevels (mergeLevels e u) side
  rw [show sortAndTrimLevels (mergeLevels e u) side =
      (List.insertionSort (levelLE side) (mergeLevels e u)).take (max 1 200) from rfl]
  refine take_eq_of_pairwise_subset (levelLT side) (levelLT_asymm side) _ _ _
    (insertionSort_pairwise_levelLT _ side hndA)
    (insertionSort_pairwise_levelLT _ side hndB) ?_ ?_
  · intro x hx
    have hxB := (List.perm_insertionSort (levelLE side) _).subset hx
    have hxA := mergeLevels_subset_of_trim e u side x hxB
    exact ((List.perm_insertionSort (levelLE side) _).mem_iff).mpr hxA
  · intro x hx
    have hxT : x ∈ sortAndTrimLevels (mergeLevels e u) side := hx
    have hxB := trim_subset_of_mergeLevels e u side x hxT
    exact ((List.perm_insertionSort (levelLE side) _).mem_iff).mpr hxB

end Lighter

namespace Lighter

theorem handleOrderBookUpdate_eq_none_book {st : BookState} {msg : OrderBookMessage}
    {now : Int} (h : st.orderBook = none) :
    handleOrderBookUpdate st msg now = st := by
  simp [handleOrderBookUpdate, h]

theorem handleOrderBookUpdate_eq_none_msg {st : BookState} {msg : OrderBookMessage}
    {now : Int} (h : msg.order_book = none) :
    handleOrderBookUpdate st msg now = st := by
  rcases hsb : st.orderBook with _ | book
  · simp [handleOrderBookUpdate, hsb]
  · simp [handleOrderBookUpdate, hsb, h]

theorem handleOrderBookUpdate_applied {st : BookState} {book : OrderBookSnapshot}
    {update : RawOrderBook} {msg : OrderBookMessage} {now : Int}
    (hsb : st.orderBook = some book) (hob : msg.order_book = some update)
    (hg1 : ¬(st.lastOrderBookOffset ≠ 0 ∧ incomingOffsetOf msg ≠ 0 ∧
      incomingOffsetOf msg < st.lastOrderBookOffset))
    (hg2 : ¬(incomingOffsetOf msg = st.lastOrderBookOffset ∧
      msg.timestamp.getD 0 ≠ 0 ∧
      msg.timestamp.getD 0 ≤ st.lastOrderBookTimestamp)) :
    handleOrderBookUpdate st msg now =
      { orderBook := some
          { market_id := book.market_id
            offset := update.offset.getD book.offset
            bids := match update.bids with
              | some rawBids =>
                sortAndTrimLevels (mergeLevels book.bids (normalizeLevels rawBids))
                  Side.bid
              | none => book.bids
            asks := match update.asks with
              | some rawAsks =>
                sortAndTrimLevels (mergeLevels book.asks (normalizeLevels rawAsks))
                  Side.ask
              | none => book.asks }
        lastOrderBookOffset := update.offset.getD book.offset
        lastOrderBookTimestamp :=
          if msg.timestamp.getD 0 ≠ 0 then msg.timestamp.getD 0 else now } := by
  simp [handleOrderBookUpdate, hsb, hob, hg1, hg2]

end Lighter

open Lighter in
/-- C6: order-book delta reconciliation is idempotent — applying the same
delta message twice in succession yields the same bids and asks as applying it
once (the second application is either dropped by the staleness guards or
re-merges the identical updates without effect); and in the level merge a
final update with size `<= 0` removes the price level while a positive size
replaces it. -/
theorem orderBook_delta_idempotent (st : BookState) (msg : OrderBookMessage)
    (now1 now2 : Int) (e : List Level) (p s : ℚ) :
    ((handleOrderBookUpdate (handleOrderBookUpdate st msg now1) msg now2).orderBook.map
        (fun b => b.bids) =
      (handleOrderBookUpdate st msg now1).orderBook.map (fun b => b.bids)) ∧
    ((handleOrderBookUpdate (handleOrderBookUpdate st msg now1) msg now2).orderBook.map
        (fun b => b.asks) =
      (handleOrderBookUpdate st msg now1).orderBook.map (fun b => b.asks)) ∧
    (s ≤ 0 → levelLookup (mergeLevels e [{ price := p, size := s }]) p = none) ∧
    (0 < s → levelLookup (mergeLevels e [{ price := p, size := s }]) p = some s) := by
  have hbooks :
      ((handleOrderBookUpdate (handleOrderBookUpdate st msg now1) msg now2).orderBook.map
          (fun b => b.bids) =
        (handleOrderBookUpdate st msg now1).orderBook.map (fun b => b.bids)) ∧
      ((handleOrderBookUpdate (handleOrderBookUpdate st msg now1) msg now2).orderBook.map
          (fun b => b.asks) =
        (handleOrderBookUpdate st msg now1).orderBook.map (fun b => b.asks)) := by
    rcases hsb : st.orderBook with _ | book0
    · rw [handleOrderBookUpdate_eq_none_book hsb,
          handleOrderBookUpdate_eq_none_book hsb]
      exact ⟨rfl, rfl⟩
    · by_cases hg1 : st.lastOrderBookOffset ≠ 0 ∧ incomingOffsetOf msg ≠ 0 ∧
          incomingOffsetOf msg < st.lastOrderBookOffset
      · rw [((orderBook_stale_guards st none msg now1).1 hg1.1 hg1.2.1 hg1.2.2).2,
            ((orderBook_stale_guards st none msg now2).1 hg1.1 hg1.2.1 hg1.2.2).2]
        exact ⟨rfl, rfl⟩
      · by_cases hg2 : incomingOffsetOf msg = st.lastOrderBookOffset ∧
            msg.timestamp.getD 0 ≠ 0 ∧
            msg.timestamp.getD 0 ≤ st.lastOrderBookTimestamp
        · rw [((orderBook_stale_guards st none msg now1).2 hg2.1 hg2.2.1 hg2.2.2).2,
              ((orderBook_stale_guards st none msg now2).2 hg2.1 hg2.2.1 hg2.2.2).2]
          exact ⟨rfl, rfl⟩
        · rcases hob : msg.order_book with _ | update
          · rw [handleOrderBookUpdate_eq_none_msg hob,
                handleOrderBookUpdate_eq_none_msg hob]
            exact ⟨rfl, rfl⟩
          · rw [handleOrderBookUpdate_applied hsb hob hg1 hg2]
            by_cases hg1' : update.offset.getD book0.offset ≠ 0 ∧
                incomingOffsetOf msg ≠ 0 ∧
                incomingOffsetOf msg < update.offset.getD book0.offset
            · rw [((orderBook_stale_guards _ none msg now2).1
                  hg1'.1 hg1'.2.1 hg1'.2.2).2]
              exact ⟨rfl, rfl⟩
            · by_cases hg2' : incomingOffsetOf msg = update.offset.getD book0.offset ∧
                  msg.timestamp.getD 0 ≠ 0 ∧
                  msg.timestamp.getD 0 ≤
                    (if msg.timestamp.getD 0 ≠ 0 then msg.timestamp.getD 0 else now1)
              · rw [((orderBook_stale_guards _ none msg now2).2
                    hg2'.1 hg2'.2.1 hg2'.2.2).2]
                exact ⟨rfl, rfl⟩
              · rw [handleOrderBookUpdate_applied rfl hob hg1' hg2']
                constructor
                · simp only [Option.map_some', Option.some.injEq]
                  rcases hub : update.bids with _ | rawBids
                  · rfl
                  · exact sortAndTrim_merge_idempotent _ _ _
                · simp only [Option.map_some', Option.some.injEq]
                  rcases hua : update.asks with _ | rawAsks
                  · rfl
                  · exact sortAndTrim_merge_idempotent _ _ _
  exact ⟨hbooks.1, hbooks.2, fun hs => by
    rw [levelLookup_mergeLevels, mergeResultAt_cons, if_pos rfl, if_pos hs]
    rfl,
  fun hs => by
    rw [levelLookup_mergeLevels, mergeResultAt_cons, if_pos rfl,
        if_neg (not_le.mpr hs)]
    rfl⟩

open Lighter in
/-- Witness for C6: the spec's scenario-B delta (`{100.00, 0}` on a book with
bid `{100.00, 5}`) removes the level, a positive re-quote replaces it, and the
witnessed books agree after one and two applications. -/
theorem orderBook_delta_idempotent_witness :
    levelLookup (mergeLevels [{ price := 100, size := 5 }]
      [{ price := 100, size := 0 }]) 100 = none ∧
    levelLookup (mergeLevels [{ price := 100, size := 5 }]
      [{ price := 100, size := 7 }]) 100 = some 7 := by
  refine ⟨?_, ?_⟩
  · exact (orderBook_delta_idempotent ⟨none, 0, 0⟩ ⟨none, none, none⟩ 0 0
      [{ price := 100, size := 5 }] 100 0).2.2.1 (by decide)
  · exact (orderBook_delta_idempotent ⟨none, 0, 0⟩ ⟨none, none, none⟩ 0 0
      [{ price := 100, size := 5 }] 100 7).2.2.2 (by decide)

/-! ## Order-book invariant (claim C5) -/

namespace Lighter

theorem handleOrderBookSnapshot_eq_none_msg {st : BookState} {marketId : Option Int}
    {msg : OrderBookMessage} {now : Int} (h : msg.order_book = none) :
    handleOrderBookSnapshot st marketId msg now = st := by
  simp [handleOrderBookSnapshot, h]

theorem handleOrderBookSnapshot_applied {st : BookState} {marketId : Option Int}
    {raw : RawOrderBook} {msg : OrderBookMessage} {now : Int}
    (hob : msg.order_book = some raw)
    (hg1 : ¬(st.lastOrderBookOffset ≠ 0 ∧ incomingOffsetOf msg ≠ 0 ∧
      incomingOffsetOf msg < st.lastOrderBookOffset))
    (hg2 : ¬(incomingOffsetOf msg = st.lastOrderBookOffset ∧
      msg.timestamp.getD 0 ≠ 0 ∧
      msg.timestamp.getD 0 ≤ st.lastOrderBookTimestamp)) :
    handleOrderBookSnapshot st marketId msg now =
      { orderBook := some
          { market_id := marketId.getD 0
            offset := raw.offset.getD now
            bids := sortAndTrimLevels (normalizeLevels (raw.bids.getD [])) Side.bid
            asks := sortAndTrimLevels (normalizeLevels (raw.asks.getD [])) Side.ask }
        lastOrderBookOffset := raw.offset.getD now
        lastOrderBookTimestamp :=
          if msg.timestamp.getD 0 ≠ 0 then msg.timestamp.getD 0 else now } := by
  simp [handleOrderBookSnapshot, hob, hg1, hg2]

end Lighter

open Lighter in
/-- C5 (amended): after an accepted snapshot whose raw levels have pairwise
distinct prices and positive sizes, the stored book satisfies the invariant —
bids strictly descending, asks strictly ascending (hence no duplicate price
levels), every size positive; and a delta preserves the invariant.  A snapshot
containing a zero-size or duplicate-price level stores it verbatim, so the
unconditional original claim fails (see the counterexample). -/
theorem orderBook_invariant (st : BookState) (marketId : Option Int)
    (msg : OrderBookMessage) (now : Int) :
    ((∀ raw, msg.order_book = some raw →
        nodupPrices (raw.bids.getD []) ∧ levelsPositive (raw.bids.getD []) ∧
        nodupPrices (raw.asks.getD []) ∧ levelsPositive (raw.asks.getD [])) →
      handleOrderBookSnapshot st marketId msg now = st ∨
      ∀ book ∈ (handleOrderBookSnapshot st marketId msg now).orderBook,
        bookInvariant book) ∧
    ((∀ book ∈ st.orderBook, bookInvariant book) →
      ∀ book ∈ (handleOrderBookUpdate st msg now).orderBook, bookInvariant book) := by
  constructor
  · intro hgood
    rcases hob : msg.order_book with _ | raw
    · exact Or.inl (handleOrderBookSnapshot_eq_none_msg hob)
    · by_cases hg1 : st.lastOrderBookOffset ≠ 0 ∧ incomingOffsetOf msg ≠ 0 ∧
          incomingOffsetOf msg < st.lastOrderBookOffset
      · exact Or.inl
          ((orderBook_stale_guards st marketId msg now).1 hg1.1 hg1.2.1 hg1.2.2).1
      · by_cases hg2 : incomingOffsetOf msg = st.lastOrderBookOffset ∧
            msg.timestamp.getD 0 ≠ 0 ∧
            msg.timestamp.getD 0 ≤ st.lastOrderBookTimestamp
        · exact Or.inl
            ((orderBook_stale_guards st marketId msg now).2 hg2.1 hg2.2.1 hg2.2.2).1
        · right
          intro book hbook
          obtain ⟨hndb, hposb, hnda, hposa⟩ := hgood raw hob
          rw [handleOrderBookSnapshot_applied hob hg1 hg2] at hbook
          simp only [Option.mem_def, Option.some.injEq] at hbook
          rw [← hbook]
          refine ⟨sortAndTrimLevels_pairwise _ _ hndb,
                  sortAndTrimLevels_pairwise _ _ hnda,
                  fun lv hlv => hposb lv (sortAndTrimLevels_subset hlv),
                  fun lv hlv => hposa lv (sortAndTrimLevels_subset hlv)⟩
  · intro hinv book hbook
    rcases hsb : st.orderBook with _ | book0
    · rw [handleOrderBookUpdate_eq_none_book hsb, hsb] at hbook
      simp at hbook
    · have hinv0 : bookInvariant book0 := hinv book0 (by rw [hsb]; rfl)
      by_cases hg1 : st.lastOrderBookOffset ≠ 0 ∧ incomingOffsetOf msg ≠ 0 ∧
          incomingOffsetOf msg < st.lastOrderBookOffset
      · rw [((orderBook_stale_guards st marketId msg now).1
            hg1.1 hg1.2.1 hg1.2.2).2] at hbook
        exact hinv book hbook
      · by_cases hg2 : incomingOffsetOf msg = st.lastOrderBookOffset ∧
            msg.timestamp.getD 0 ≠ 0 ∧
            msg.timestamp.getD 0 ≤ st.lastOrderBookTimestamp
        · rw [((orderBook_stale_guards st marketId msg now).2
              hg2.1 hg2.2.1 hg2.2.2).2] at hbook
          exact hinv book hbook
        · rcases hob : msg.order_book with _ | update
          · rw [handleOrderBookUpdate_eq_none_msg hob] at hbook
            exact hinv book hbook
          · rw [handleOrderBookUpdate_applied hsb hob hg1 hg2] at hbook
            simp only [Option.mem_def, Option.some.injEq] at hbook
            rw [← hbook]
            obtain ⟨hpb, hpa, hposb, hposa⟩ := hinv0
            refine ⟨?_, ?_, ?_, ?_⟩
            · rcases hub : update.bids with _ | rawBids
              · exact hpb
              · exact sortAndTrimLevels_pairwise _ _ (mergeLevels_nodupPrices _ _)
            · rcases hua : update.asks with _ | rawAsks
              · exact hpa
              · exact sortAndTrimLevels_pairwise _ _ (mergeLevels_nodupPrices _ _)
            · rcases hub : update.bids with _ | rawBids
              · exact hposb
              · exact fun lv hlv => mergeLevels_positive _ _ hposb lv
                  (sortAndTrimLevels_subset hlv)
            · rcases hua : update.asks with _ | rawAsks
              · exact hposa
              · exact fun lv hlv => mergeLevels_positive _ _ hposa lv
                  (sortAndTrimLevels_subset hlv)

open Lighter in
/-- C5 counterexample: a snapshot whose only bid level has size `0` is stored
verbatim, so the claimed size-positive invariant fails after processing. -/
theorem orderBook_zero_size_counterexample :
    (handleOrderBookSnapshot ⟨none, 0, 0⟩ (some 1)
      ⟨some ⟨some 7, some [{ price := 100, size := 0 }], some []⟩, some 7, some 5⟩
      999).orderBook.map (fun b => b.bids) = some [{ price := 100, size := 0 }] ∧
    ¬ levelsPositive [{ price := 100, size := 0 }] := by decide

open Lighter in
/-- Witness for C5: a well-formed snapshot yields a book satisfying the
invariant. -/
theorem orderBook_invariant_witness :
    bookInvariant
      { market_id := 1, offset := 7,
        bids := [{ price := 100, size := 2 }, { price := 99, size := 1 }],
        asks := [{ price := 101, size := 3 }] } := by
  have h := (orderBook_invariant ⟨none, 0, 0⟩ (some 1)
    ⟨some ⟨some 7, some [{ price := 99, size := 1 }, { price := 100, size := 2 }],
      some [{ price := 101, size := 3 }]⟩, some 7, some 5⟩ 999).1
    (by
      intro raw hraw
      injection hraw with hr
      rw [← hr]
      exact ⟨by decide, by decide, by decide, by decide⟩)
  rcases h with h | h
  · exact absurd h (by decide)
  · exact h
      { market_id := 1, offset := 7,
        bids := [{ price := 100, size := 2 }, { price := 99, size := 1 }],
        asks := [{ price := 101, size := 3 }] }
      (by decide)

/-! ## Decimal round-trip machinery (claim C1) -/

namespace Lighter

theorem digitsToNat_foldl (l : List Char) (a : Nat) :
    l.foldl (fun a c => 10 * a + charVal c) a = a * 10 ^ l.length + digitsToNat l := by
  induction l generalizing a with
  | nil => simp [digitsToNat]
  | cons c t ih =>
    rw [List.foldl_cons, ih (10 * a + charVal c)]
    have h2 : digitsToNat (c :: t) = (10 * 0 + charVal c) * 10 ^ t.length + digitsToNat t := by
      show List.foldl (fun a c => 10 * a + charVal c) (10 * 0 + charVal c) t = _
      rw [ih (10 * 0 + charVal c)]
    rw [h2, List.length_cons, pow_succ]
    ring

theorem digitsToNat_append (a b : List Char) :
    digitsToNat (a ++ b) = digitsToNat a * 10 ^ b.length + digitsToNat b := by
  unfold digitsToNat
  rw [List.foldl_append]
  exact digitsToNat_foldl b _

theorem digitsToNat_all_zero {l : List Char} (h : ∀ c ∈ l, c = '0') :
    digitsToNat l = 0 := by
  induction l with
  | nil => rfl
  | cons c t ih =>
    have hc : c = '0' := h c (List.mem_cons_self _ _)
    have : digitsToNat (c :: t) = t.foldl (fun a c => 10 * a + charVal c) (10 * 0 + charVal c) := rfl
    rw [this, hc]
    have hv : (10 * 0 + charVal '0') = 0 := by decide
    rw [hv]
    exact ih (fun c2 h2 => h c2 (List.mem_cons_of_mem _ h2))

theorem digitsToNat_replicate_zero (k : Nat) :
    digitsToNat (List.replicate k '0') = 0 :=
  digitsToNat_all_zero (fun c hc => (List.eq_of_mem_replicate hc))

theorem digitsToNat_zero_prefix (k : Nat) (l : List Char) :
    digitsToNat (List.replicate k '0' ++ l) = digitsToNat l := by
  rw [digitsToNat_append, digitsToNat_replicate_zero, zero_mul, zero_add]

theorem digitsToNat_append_zeros (D : List Char) (k : Nat) :
    digitsToNat (D ++ List.replicate k '0') = digitsToNat D * 10 ^ k := by
  rw [digitsToNat_append, digitsToNat_replicate_zero, List.length_replicate, add_zero]

theorem natToCharsGo_eq (fuel : Nat) : ∀ (m : Nat) (acc : List Char), m < fuel →
    natToCharsGo fuel m acc = natToChars m ++ acc := by
  induction fuel using Nat.strong_induction_on with
  | _ fuel ihf =>
    intro m acc h
    cases fuel with
    | zero => omega
    | succ f =>
      by_cases hm : m < 10
      · simp only [natToCharsGo, if_pos hm]
        unfold natToChars
        simp only [natToCharsGo, if_pos hm]
        rfl
      · have hdiv : m / 10 < m := Nat.div_lt_self (by omega) (by omega)
        simp only [natToCharsGo, if_neg hm]
        rw [ihf f (by omega) (m / 10) _ (by omega)]
        have hrhs : natToChars m = natToChars (m / 10) ++ [digitChar (m % 10)] := by
          show natToCharsGo (m + 1) m [] = _
          simp only [natToCharsGo, if_neg hm]
          exact ihf m (by omega) (m / 10) _ (by omega)
        rw [hrhs, List.append_assoc]
        rfl

theorem natToChars_eq (m : Nat) :
    natToChars m = if m < 10 then [digitChar m]
      else natToChars (m / 10) ++ [digitChar (m % 10)] := by
  by_cases hm : m < 10
  · rw [if_pos hm]
    show natToCharsGo (m + 1) m [] = _
    simp only [natToCharsGo, if_pos hm]
  · rw [if_neg hm]
    show natToCharsGo (m + 1) m [] = _
    simp only [natToCharsGo, if_neg hm]
    exact natToCharsGo_eq m (m / 10) _ (by
      have := Nat.div_lt_self (show 0 < m by omega) (show 1 < 10 by omega)
      omega)

theorem charVal_digitChar {n : Nat} (h : n < 10) : charVal (digitChar n) = n := by
  interval_cases n <;> decide

theorem digitsToNat_natToChars (m : Nat) : digitsToNat (natToChars m) = m := by
  induction m using Nat.strong_induction_on with
  | _ m ih =>
    rw [natToChars_eq]
    by_cases hm : m < 10
    · rw [if_pos hm]
      show 10 * 0 + charVal (digitChar m) = m
      rw [charVal_digitChar hm]
      omega
    · rw [if_neg hm, digitsToNat_append]
      have hdiv : m / 10 < m := Nat.div_lt_self (by omega) (by omega)
      rw [ih (m / 10) hdiv]
      have hmod : digitsToNat [digitChar (m % 10)] = m % 10 := by
        show 10 * 0 + charVal (digitChar (m % 10)) = m % 10
        rw [charVal_digitChar (Nat.mod_lt _ (by omega))]
        omega
      rw [hmod]
      simp only [List.length_cons, List.length_nil, pow_one]
      omega

theorem natToChars_mem {m : Nat} {c : Char} (h : c ∈ natToChars m) :
    ∃ k, k < 10 ∧ c = digitChar k := by
  induction m using Nat.strong_induction_on with
  | _ m ih =>
    rw [natToChars_eq] at h
    by_cases hm : m < 10
    · rw [if_pos hm] at h
      have : c = digitChar m := by simpa using h
      exact ⟨m, hm, this⟩
    · rw [if_neg hm] at h
      rcases List.mem_append.mp h with h | h
      · exact ih (m / 10) (Nat.div_lt_self (by omega) (by omega)) h
      · have : c = digitChar (m % 10) := by simpa using h
        exact ⟨m % 10, Nat.mod_lt _ (by omega), this⟩

theorem digitChar_isDigit {k : Nat} (h : k < 10) : (digitChar k).isDigit = true := by
  interval_cases k <;> decide

theorem digitChar_ne_dot {k : Nat} (h : k < 10) : digitChar k ≠ '.' := by
  interval_cases k <;> decide

theorem digitChar_ne_dash {k : Nat} (h : k < 10) : digitChar k ≠ '-' := by
  interval_cases k <;> decide

theorem digitChar_not_ws {k : Nat} (h : k < 10) :
    (digitChar k).isWhitespace = false := by
  interval_cases k <;> decide

theorem digitChar_eq_zero_iff {k : Nat} (h : k < 10) :
    digitChar k = '0' ↔ k = 0 := by
  interval_cases k <;> simp <;> decide

theorem natToChars_ne_nil (m : Nat) : natToChars m ≠ [] := by
  rw [natToChars_eq]
  split
  · simp
  · simp

theorem natToChars_head {m : Nat} (h : m ≠ 0) :
    ∃ c t, natToChars m = c :: t ∧ c ≠ '0' := by
  induction m using Nat.strong_induction_on with
  | _ m ih =>
    rw [natToChars_eq]
    by_cases hm : m < 10
    · rw [if_pos hm]
      refine ⟨digitChar m, [], rfl, ?_⟩
      rw [Ne, digitChar_eq_zero_iff hm]
      exact h
    · rw [if_neg hm]
      have hdiv0 : m / 10 ≠ 0 := (Nat.div_pos (by omega) (by omega)).ne'
      obtain ⟨c, t, hct, hc0⟩ := ih (m / 10)
        (Nat.div_lt_self (by omega) (by omega)) hdiv0
      exact ⟨c, t ++ [digitChar (m % 10)], by rw [hct]; rfl, hc0⟩

end Lighter

namespace Lighter

theorem dropWhile_eq_self_of_none {α : Type} (p : α → Bool) (l : List α)
    (h : ∀ c ∈ l, p c = false) : l.dropWhile p = l := by
  cases l with
  | nil => rfl
  | cons a t => simp [List.dropWhile_cons, h a (List.mem_cons_self _ _)]

theorem trimChars_eq_self {l : List Char} (h : ∀ c ∈ l, c.isWhitespace = false) :
    trimChars l = l := by
  unfold trimChars
  rw [dropWhile_eq_self_of_none _ _ h,
      dropWhile_eq_self_of_none _ _ (fun c hc => h c (List.mem_reverse.mp hc)),
      List.reverse_reverse]

theorem takeWhile_append_sat {α : Type} (p : α → Bool) (a : List α) (x : α)
    (b : List α) (ha : ∀ c ∈ a, p c = true) (hx : p x = false) :
    (a ++ x :: b).takeWhile p = a := by
  induction a with
  | nil => simp [List.takeWhile_cons, hx]
  | cons c t ih =>
    rw [List.cons_append, List.takeWhile_cons, ha c (List.mem_cons_self _ _)]
    simp only [if_true]
    rw [ih (fun c2 h2 => ha c2 (List.mem_cons_of_mem _ h2))]

theorem dropWhile_append_sat {α : Type} (p : α → Bool) (a : List α) (x : α)
    (b : List α) (ha : ∀ c ∈ a, p c = true) (hx : p x = false) :
    (a ++ x :: b).dropWhile p = x :: b := by
  induction a with
  | nil => simp [List.dropWhile_cons, hx]
  | cons c t ih =>
    rw [List.cons_append, List.dropWhile_cons, ha c (List.mem_cons_self _ _)]
    simp only [if_true]
    exact ih (fun c2 h2 => ha c2 (List.mem_cons_of_mem _ h2))

theorem stripTrailingZeros_spec (l : List Char) :
    l = stripTrailingZeros l ++
      List.replicate (l.length - (stripTrailingZeros l).length) '0' := by
  unfold stripTrailingZeros
  conv_lhs => rw [← l.reverse_reverse,
    ← List.takeWhile_append_dropWhile (fun c => decide (c = '0')) l.reverse]
  rw [List.reverse_append]
  congr 1
  have hall : ∀ c ∈ l.reverse.takeWhile (fun c => decide (c = '0')), c = '0' := by
    intro c hc
    simpa using List.mem_takeWhile_imp hc
  rw [List.eq_replicate_iff.mpr ⟨rfl, fun b hb => hall b (List.mem_reverse.mp hb)⟩]
  congr 1
  rw [List.length_reverse]
  have hsplit := congrArg List.length
    (List.takeWhile_append_dropWhile (fun c => decide (c = '0')) l.reverse)
  rw [List.length_append, List.length_reverse] at hsplit
  rw [List.length_reverse]
  omega

theorem stripTrailingZeros_length_le (l : List Char) :
    (stripTrailingZeros l).length ≤ l.length := by
  unfold stripTrailingZeros
  rw [List.length_reverse]
  calc (l.reverse.dropWhile (fun c => decide (c = '0'))).length
      ≤ l.reverse.length := (List.dropWhile_sublist _).length_le
    _ = l.length := List.length_reverse l

theorem stripTrailingZeros_eq_nil {l : List Char}
    (h : stripTrailingZeros l = []) : ∀ c ∈ l, c = '0' := by
  intro c hc
  have := stripTrailingZeros_spec l
  rw [h, List.nil_append] at this
  rw [this] at hc
  exact List.eq_of_mem_replicate hc

theorem stripLeadingZeros_ne_nil {l : List Char} (h : l ≠ []) :
    stripLeadingZeros l ≠ [] := by
  unfold stripLeadingZeros
  rw [if_neg h]
  rcases hdrop : l.dropWhile (fun c => decide (c = '0')) with _ | ⟨a, t⟩
  · simp [hdrop]
  · simp [hdrop]

theorem digitsToNat_stripLeadingZeros (l : List Char) :
    digitsToNat (stripLeadingZeros l) = digitsToNat l := by
  unfold stripLeadingZeros
  by_cases hl : l = []
  · rw [if_pos hl, hl]
  · rw [if_neg hl]
    rcases hdrop : l.dropWhile (fun c => decide (c = '0')) with _ | ⟨a, t⟩
    · have hall : ∀ c ∈ l, c = '0' := by
        intro c hc
        have := List.dropWhile_eq_nil_iff.mp hdrop c hc
        simpa using this
      rw [digitsToNat_all_zero hall]
      simp [hdrop]
      decide
    · have hsplit := List.takeWhile_append_dropWhile (fun c => decide (c = '0')) l
      have htake : ∀ c ∈ l.takeWhile (fun c => decide (c = '0')), c = '0' := by
        intro c hc
        simpa using List.mem_takeWhile_imp hc
      conv_rhs => rw [← hsplit]
      rw [hdrop, digitsToNat_append, digitsToNat_all_zero htake]
      simp [hdrop]

end Lighter

namespace Lighter

theorem parse_digits (u : List Char) (hne : u ≠ [])
    (hdl : ∀ c ∈ u, ∃ k, k < 10 ∧ c = digitChar k) :
    normalizeDecimalInput u = some ⟨1, stripLeadingZeros u, 0⟩ ∧
    normalizeDecimalInput ('-' :: u) = some ⟨-1, stripLeadingZeros u, 0⟩ := by
  have hnws : ∀ c ∈ u, c.isWhitespace = false := by
    intro c hc
    obtain ⟨k, hk, rfl⟩ := hdl c hc
    exact digitChar_not_ws hk
  have hnwsm : ∀ c ∈ '-' :: u, c.isWhitespace = false := by
    intro c hc
    rcases List.mem_cons.mp hc with rfl | hc
    · decide
    · exact hnws c hc
  have hhead : ¬ (u.head? = some '-') := by
    rcases hu : u with _ | ⟨c, t⟩
    · exact absurd hu hne
    · have hc : c ∈ u := by rw [hu]; exact List.mem_cons_self _ _
      obtain ⟨k, hk, hck⟩ := hdl c hc
      simp only [List.head?_cons, Option.some.injEq]
      rw [hck]
      exact digitChar_ne_dash hk
  have hvb : ¬¬ validBody u = true := by
    have hcount : u.count '.' = 0 := by
      refine List.count_eq_zero.mpr ?_
      intro hc
      obtain ⟨k, hk, hck⟩ := hdl '.' hc
      exact digitChar_ne_dot hk hck.symm
    have hall : u.all (fun c => c.isDigit || decide (c = '.')) = true := by
      rw [List.all_eq_true]
      intro c hc
      obtain ⟨k, hk, rfl⟩ := hdl c hc
      simp [digitChar_isDigit hk]
    refine not_not_intro ?_
    unfold validBody
    rw [Bool.and_eq_true, hall]
    exact ⟨by simp [hcount], rfl⟩
  have hnotsp : ¬ (u = [] ∨ u = ['.']) := by
    rintro (hc | hc)
    · exact hne hc
    · obtain ⟨k, hk, hck⟩ := hdl '.' (by rw [hc]; exact List.mem_cons_self _ _)
      exact digitChar_ne_dot hk hck.symm
  have htw : u.takeWhile (fun c => decide (c ≠ '.')) = u := by
    rw [List.takeWhile_eq_self_iff]
    intro c hc
    obtain ⟨k, hk, rfl⟩ := hdl c hc
    simp [digitChar_ne_dot hk]
  have hdw : u.dropWhile (fun c => decide (c ≠ '.')) = [] := by
    rw [List.dropWhile_eq_nil_iff]
    intro c hc
    obtain ⟨k, hk, rfl⟩ := hdl c hc
    simp [digitChar_ne_dot hk]
  have hslz := stripLeadingZeros_ne_nil hne
  have hboth : ¬ (stripLeadingZeros u = [] ∧
      stripTrailingZeros (List.drop 1 ([] : List Char)) = []) :=
    fun hc => hslz hc.1
  constructor
  · simp only [normalizeDecimalInput]
    rw [trimChars_eq_self hnws, if_neg hne, if_neg hhead, if_neg hhead,
        if_neg hvb, if_neg hnotsp, htw, hdw, if_neg hboth, if_neg hslz]
    simp [stripTrailingZeros]
  · simp only [normalizeDecimalInput]
    rw [trimChars_eq_self hnwsm]
    have hne2 : ('-' :: u) ≠ [] := by simp
    have hhead2 : ('-' :: u).head? = some '-' := rfl
    rw [if_neg hne2, if_pos hhead2, if_pos hhead2]
    simp only [List.tail_cons]
    rw [if_neg hvb, if_neg hnotsp, htw, hdw, if_neg hboth, if_neg hslz]
    simp [stripTrailingZeros]

end Lighter

namespace Lighter

theorem parse_dotted (I Fr : List Char) (hneI : I ≠ [])
    (hdlI : ∀ c ∈ I, ∃ k, k < 10 ∧ c = digitChar k)
    (hdlF : ∀ c ∈ Fr, ∃ k, k < 10 ∧ c = digitChar k)
    (hnz : ¬ ∀ c ∈ Fr, c = '0') :
    normalizeDecimalInput (I ++ '.' :: Fr) =
      some ⟨1, stripLeadingZeros I ++ stripTrailingZeros Fr,
            (stripTrailingZeros Fr).length⟩ ∧
    normalizeDecimalInput ('-' :: (I ++ '.' :: Fr)) =
      some ⟨-1, stripLeadingZeros I ++ stripTrailingZeros Fr,
            (stripTrailingZeros Fr).length⟩ := by
  set u := I ++ '.' :: Fr with hu
  have hnws : ∀ c ∈ u, c.isWhitespace = false := by
    intro c hc
    rcases List.mem_append.mp hc with hc | hc
    · obtain ⟨k, hk, rfl⟩ := hdlI c hc
      exact digitChar_not_ws hk
    · rcases List.mem_cons.mp hc with rfl | hc
      · decide
      · obtain ⟨k, hk, rfl⟩ := hdlF c hc
        exact digitChar_not_ws hk
  have hnwsm : ∀ c ∈ '-' :: u, c.isWhitespace = false := by
    intro c hc
    rcases List.mem_cons.mp hc with rfl | hc
    · decide
    · exact hnws c hc
  have hne : u ≠ [] := by
    rcases hI : I with _ | ⟨c, t⟩
    · exact absurd hI hneI
    · rw [hu, hI]
      simp
  obtain ⟨c0, t0, hI0⟩ : ∃ c t, I = c :: t := by
    rcases hI : I with _ | ⟨c, t⟩
    · exact absurd hI hneI
    · exact ⟨c, t, rfl⟩
  obtain ⟨k0, hk0, hc0⟩ := hdlI c0 (by rw [hI0]; exact List.mem_cons_self _ _)
  have hhead : ¬ (u.head? = some '-') := by
    rw [hu, hI0]
    simp only [List.cons_append, List.head?_cons, Option.some.injEq]
    rw [hc0]
    exact digitChar_ne_dash hk0
  have hvb : ¬¬ validBody u = true := by
    have hcountI : I.count '.' = 0 := by
      refine List.count_eq_zero.mpr ?_
      intro hc
      obtain ⟨k, hk, hck⟩ := hdlI '.' hc
      exact digitChar_ne_dot hk hck.symm
    have hcountF : Fr.count '.' = 0 := by
      refine List.count_eq_zero.mpr ?_
      intro hc
      obtain ⟨k, hk, hck⟩ := hdlF '.' hc
      exact digitChar_ne_dot hk hck.symm
    have hcount : u.count '.' = 1 := by
      rw [hu, List.count_append, List.count_cons, hcountI, hcountF]
      simp
    have hall : u.all (fun c => c.isDigit || decide (c = '.')) = true := by
      rw [List.all_eq_true]
      intro c hc
      rcases List.mem_append.mp hc with hc | hc
      · obtain ⟨k, hk, rfl⟩ := hdlI c hc
        simp [digitChar_isDigit hk]
      · rcases List.mem_cons.mp hc with rfl | hc
        · simp
        · obtain ⟨k, hk, rfl⟩ := hdlF c hc
          simp [digitChar_isDigit hk]
    refine not_not_intro ?_
    unfold validBody
    rw [Bool.and_eq_true, hall]
    exact ⟨by simp [hcount], rfl⟩
  have hnotsp : ¬ (u = [] ∨ u = ['.']) := by
    rintro (hc | hc)
    · exact hne hc
    · rw [hu, hI0] at hc
      simp only [List.cons_append, List.cons.injEq] at hc
      exact digitChar_ne_dot hk0 (hc0 ▸ hc.1)
  have htw : u.takeWhile (fun c => decide (c ≠ '.')) = I := by
    rw [hu]
    refine takeWhile_append_sat _ I '.' Fr ?_ (by simp)
    intro c hc
    obtain ⟨k, hk, rfl⟩ := hdlI c hc
    simp [digitChar_ne_dot hk]
  have hdw : u.dropWhile (fun c => decide (c ≠ '.')) = '.' :: Fr := by
    rw [hu]
    refine dropWhile_append_sat _ I '.' Fr ?_ (by simp)
    intro c hc
    obtain ⟨k, hk, rfl⟩ := hdlI c hc
    simp [digitChar_ne_dot hk]
  have hslz := stripLeadingZeros_ne_nil hneI
  have hstz : stripTrailingZeros Fr ≠ [] :=
    fun hc => hnz (stripTrailingZeros_eq_nil hc)
  have hboth : ¬ (stripLeadingZeros I = [] ∧
      stripTrailingZeros (List.drop 1 ('.' :: Fr)) = []) :=
    fun hc => hslz hc.1
  constructor
  · simp only [normalizeDecimalInput]
    rw [trimChars_eq_self hnws, if_neg hne, if_neg hhead, if_neg hhead,
        if_neg hvb, if_neg hnotsp, htw, hdw, if_neg hboth, if_neg hslz]
    simp
  · simp only [normalizeDecimalInput]
    rw [trimChars_eq_self hnwsm]
    have hne2 : ('-' :: u) ≠ [] := by simp
    have hhead2 : ('-' :: u).head? = some '-' := rfl
    rw [if_neg hne2, if_pos hhead2, if_pos hhead2]
    simp only [List.tail_cons]
    rw [if_neg hvb, if_neg hnotsp, htw, hdw, if_neg hboth, if_neg hslz]
    simp

end Lighter

namespace Lighter

theorem scaledAbsChars_eq_dec (m d : Nat) (hd : d ≠ 0) :
    scaledAbsChars m d =
      if (scaledFracPart m d).all (fun c => c = '0')
        then (if scaledIntPart m d = [] then ['0'] else scaledIntPart m d)
        else (if scaledIntPart m d = [] then ['0'] else scaledIntPart m d) ++
          '.' :: scaledFracPart m d := by
  simp only [scaledAbsChars, scaledPadded, scaledIntPart, scaledFracPart]
  rw [if_neg hd]

theorem scaledPadded_digitlike (m d : Nat) :
    ∀ c ∈ scaledPadded m d, ∃ k, k < 10 ∧ c = digitChar k := by
  intro c hc
  unfold scaledPadded at hc
  by_cases hlen : (natToChars m).length ≤ d
  · rw [if_pos hlen] at hc
    rcases List.mem_append.mp hc with hc | hc
    · exact ⟨0, by omega, List.eq_of_mem_replicate hc⟩
    · exact natToChars_mem hc
  · rw [if_neg hlen] at hc
    exact natToChars_mem hc

theorem scaledPadded_length (m d : Nat) (hd : d ≠ 0) :
    d + 1 ≤ (scaledPadded m d).length := by
  have hpos : 0 < (natToChars m).length :=
    List.length_pos.mpr (natToChars_ne_nil m)
  unfold scaledPadded
  by_cases hlen : (natToChars m).length ≤ d
  · rw [if_pos hlen, List.length_append, List.length_replicate]
    omega
  · rw [if_neg hlen]
    omega

theorem scaledPadded_val (m d : Nat) : digitsToNat (scaledPadded m d) = m := by
  unfold scaledPadded
  by_cases hlen : (natToChars m).length ≤ d
  · rw [if_pos hlen, digitsToNat_zero_prefix]
    exact digitsToNat_natToChars m
  · rw [if_neg hlen]
    exact digitsToNat_natToChars m

theorem scaledIntPart_ne_nil (m d : Nat) (hd : d ≠ 0) :
    scaledIntPart m d ≠ [] := by
  have hP := scaledPadded_length m d hd
  have hlen : (scaledIntPart m d).length = (scaledPadded m d).length - d := by
    unfold scaledIntPart
    rw [List.length_take]
    omega
  intro hc
  rw [hc] at hlen
  simp at hlen
  omega

theorem scaledFracPart_length (m d : Nat) (hd : d ≠ 0) :
    (scaledFracPart m d).length = d := by
  have hP := scaledPadded_length m d hd
  unfold scaledFracPart
  rw [List.length_drop]
  omega

theorem scaledParts_val (m d : Nat) (hd : d ≠ 0) :
    digitsToNat (scaledIntPart m d) * 10 ^ d + digitsToNat (scaledFracPart m d) = m := by
  have happ : scaledIntPart m d ++ scaledFracPart m d = scaledPadded m d :=
    List.take_append_drop _ _
  have := scaledPadded_val m d
  rw [← happ, digitsToNat_append, scaledFracPart_length m d hd] at this
  exact this

theorem scaledAbsChars_parse (m d : Nat) :
    ∃ D F, F ≤ d ∧ digitsToNat D * 10 ^ (d - F) = m ∧
      normalizeDecimalInput (scaledAbsChars m d) = some ⟨1, D, F⟩ ∧
      normalizeDecimalInput ('-' :: scaledAbsChars m d) = some ⟨-1, D, F⟩ := by
  by_cases hd : d = 0
  · subst hd
    have he : scaledAbsChars m 0 = natToChars m := by
      simp [scaledAbsChars]
    obtain ⟨h1, h2⟩ := parse_digits (natToChars m) (natToChars_ne_nil m)
      (fun c hc => natToChars_mem hc)
    refine ⟨stripLeadingZeros (natToChars m), 0, le_refl 0, ?_,
      by rw [he]; exact h1, by rw [he]; exact h2⟩
    rw [Nat.sub_zero, pow_zero, mul_one, digitsToNat_stripLeadingZeros]
    exact digitsToNat_natToChars m
  · have hIdl : ∀ c ∈ scaledIntPart m d, ∃ k, k < 10 ∧ c = digitChar k :=
      fun c hc => scaledPadded_digitlike m d c (List.mem_of_mem_take hc)
    have hFdl : ∀ c ∈ scaledFracPart m d, ∃ k, k < 10 ∧ c = digitChar k :=
      fun c hc => scaledPadded_digitlike m d c (List.mem_of_mem_drop hc)
    have hIne := scaledIntPart_ne_nil m d hd
    have hval := scaledParts_val m d hd
    rw [scaledAbsChars_eq_dec m d hd, if_neg hIne]
    by_cases hz : (scaledFracPart m d).all (fun c => c = '0') = true
    · rw [if_pos hz]
      obtain ⟨h1, h2⟩ := parse_digits (scaledIntPart m d) hIne hIdl
      refine ⟨stripLeadingZeros (scaledIntPart m d), 0, Nat.zero_le d, ?_, h1, h2⟩
      have hFr0 : digitsToNat (scaledFracPart m d) = 0 :=
        digitsToNat_all_zero (fun c hc => by
          simpa using List.all_eq_true.mp hz c hc)
      rw [Nat.sub_zero, digitsToNat_stripLeadingZeros]
      omega
    · rw [if_neg hz]
      have hnz : ¬ ∀ c ∈ scaledFracPart m d, c = '0' := by
        intro hc
        exact hz (List.all_eq_true.mpr (fun c hmem => by simp [hc c hmem]))
      obtain ⟨h1, h2⟩ := parse_dotted (scaledIntPart m d) (scaledFracPart m d)
        hIne hIdl hFdl hnz
      refine ⟨stripLeadingZeros (scaledIntPart m d) ++
        stripTrailingZeros (scaledFracPart m d),
        (stripTrailingZeros (scaledFracPart m d)).length, ?_, ?_, h1, h2⟩
      · calc (stripTrailingZeros (scaledFracPart m d)).length
            ≤ (scaledFracPart m d).length := stripTrailingZeros_length_le _
          _ = d := scaledFracPart_length m d hd
      · have hdec := stripTrailingZeros_spec (scaledFracPart m d)
        set Fr := scaledFracPart m d with hFr
        set F2 := stripTrailingZeros Fr with hF2
        have hle : F2.length ≤ Fr.length := by
          rw [hF2]
          exact stripTrailingZeros_length_le Fr
        have hFrd : Fr.length = d := scaledFracPart_length m d hd
        have hFrval : digitsToNat Fr = digitsToNat F2 * 10 ^ (Fr.length - F2.length) := by
          conv_lhs => rw [hdec]
          rw [digitsToNat_append_zeros]
        rw [digitsToNat_append, digitsToNat_stripLeadingZeros]
        have hdfk : d - F2.length = Fr.length - F2.length := by omega
        rw [hdfk]
        have hexp : 10 ^ F2.length * 10 ^ (Fr.length - F2.length) = 10 ^ d := by
          rw [← pow_add]
          congr 1
          omega
        calc (digitsToNat (scaledIntPart m d) * 10 ^ F2.length + digitsToNat F2) *
              10 ^ (Fr.length - F2.length)
            = digitsToNat (scaledIntPart m d) *
                (10 ^ F2.length * 10 ^ (Fr.length - F2.length)) +
              digitsToNat F2 * 10 ^ (Fr.length - F2.length) := by ring
          _ = digitsToNat (scaledIntPart m d) * 10 ^ d + digitsToNat Fr := by
              rw [hexp, hFrval]
          _ = m := hval

end Lighter

namespace Lighter

theorem scaledToChars_eq (n : Int) (d : Nat) :
    scaledToChars n d =
      if n < 0 then '-' :: scaledAbsChars n.natAbs d else scaledAbsChars n.natAbs d := by
  unfold scaledToChars scaledAbsChars
  by_cases hn : n < 0 <;> by_cases hd : d = 0 <;> simp [hn, hd]

end Lighter

open Lighter in
/-- C1 (amended): the inner composition of the round trip is value-preserving:
for every scaled integer `n` and decimal count `d`, parsing the rendered string
back recovers the integer exactly, `decimalToScaled (scaledToDecimalString n d) d
= some n`.  The claim's canonical-form statement fails: `scaledToDecimalString`
only strips the fraction when it is entirely zero (the regex `\.0+$` must match
from the decimal point), so a trailing run of zero fractional digits after a
nonzero digit survives — see the counterexample, where `"0.001"` at 4 decimals
renders as `"0.0010"` rather than the canonical `"0.001"`. -/
theorem decimalToScaled_scaledToDecimalString (n : Int) (d : Nat) :
    decimalToScaled (scaledToDecimalString n d) d = some n := by
  obtain ⟨D, F, hF, hval, hpos, hneg⟩ := scaledAbsChars_parse n.natAbs d
  have hdata : (scaledToDecimalString n d).data = scaledToChars n d := rfl
  rw [decimalToScaled, hdata, scaledToChars_eq]
  have hdF : ¬ (d < F) := not_lt.mpr hF
  by_cases hn : n < 0
  · rw [if_pos hn, hneg, Option.map_some']
    congr 1
    show scaledFromNorm ⟨-1, D, F⟩ d = n
    simp only [scaledFromNorm, hdF, if_false]
    rw [digitsToNat_append_zeros, hval]
    omega
  · rw [if_neg hn, hpos, Option.map_some']
    congr 1
    show scaledFromNorm ⟨1, D, F⟩ d = n
    simp only [scaledFromNorm, hdF, if_false]
    rw [digitsToNat_append_zeros, hval]
    omega

open Lighter in
/-- Counterexample to C1 as stated: `"0.001"` at 4 decimals scales to `10`,
which renders back as `"0.0010"` — the trailing zero fractional digit is not
stripped, so the result is not the canonical form `"0.001"`. -/
theorem scaledToDecimalString_not_canonical_counterexample :
    decimalToScaled "0.001" 4 = some 10 ∧
    scaledToDecimalString 10 4 = "0.0010" ∧
    scaledToDecimalString 10 4 ≠ "0.001" := by
  refine ⟨by decide, by decide, by decide⟩
